import Mathlib

/-!
Verification of the Sokoban core (model, search, solver) against its
natural-language specification.  The definitions below are a shallow
embedding of the Python sources `model.py`, `search.py` and `solver.py`:

* pure functions become Lean functions;
* the in-place mutation of `State` becomes explicit state passing
  (`move`/`undo` return the updated record together with the original
  return value of the Python method);
* the unbounded `while` loops of the search algorithms take an explicit
  fuel argument and return `none` when the fuel runs out, `some r` when
  the loop finishes with result `r`.
-/

namespace Sokoban

/-- Data class representing a move (`model.Move`): row/column delta plus a
push flag. -/
structure Move where
  dr : Int
  dc : Int
  push : Bool := false
deriving DecidableEq, Repr

/-- `Move.inv` negates the deltas and keeps the push flag. -/
def Move.inv (m : Move) : Move := ⟨-m.dr, -m.dc, m.push⟩

/-- Data class representing a position (`model.Pos`). -/
structure Pos where
  r : Int
  c : Int
deriving DecidableEq, Repr

/-- Positions are ordered lexicographically (Python `NamedTuple`
ordering); this is also used to obtain one fixed iteration order for the
Python `set`/`frozenset` iterations, whose order is unspecified. -/
instance : LinearOrder Pos :=
  LinearOrder.lift' (fun p => toLex (p.r, p.c)) (fun a b h => by
    cases a; cases b
    simpa [Pos.mk.injEq, Prod.ext_iff] using congrArg ofLex h)

/-- `Pos.add` shifts a position by the deltas of a move. -/
def Pos.add (p : Pos) (m : Move) : Pos := ⟨p.r + m.dr, p.c + m.dc⟩

/-- Manhattan distance between two positions (`Pos.dist`). -/
def Pos.dist (p q : Pos) : Nat := (p.r - q.r).natAbs + (p.c - q.c).natAbs

/-- A Sokoban level (`model.Level`): wall cells, goal cells, and the
deadend cache (initialised empty by `Level.__init__`, populated by
`solve` via `find_deadends`).  The `size` field and the initial state are
not needed by any claim and are omitted. -/
structure Level where
  walls : Finset Pos
  goals : Finset Pos
  deadends : Finset Pos
deriving DecidableEq

/-- A game state (`model.State`): the level, the box positions, the
player position, the history of applied moves and the redo stack. -/
structure State where
  level : Level
  boxes : Finset Pos
  player : Pos
  history : List Move
  redoable : List Move
deriving DecidableEq

/-- `State.copy`: `State(self.level, self.boxes, self.player, self.history)` —
the constructor copies boxes and history and sets `redoable = []`. -/
def State.copy (s : State) : State :=
  { level := s.level, boxes := s.boxes, player := s.player,
    history := s.history, redoable := [] }

/-- `State.is_free`: the position is neither a wall nor a box. -/
def State.is_free (s : State) (p : Pos) : Prop :=
  p ∉ s.level.walls ∧ p ∉ s.boxes

instance (s : State) (p : Pos) : Decidable (s.is_free p) := by
  unfold State.is_free; exact inferInstance

/-- `State.can_move`: the target cell is free, or pushing is requested,
the target holds a box and the cell beyond it is free. -/
def State.can_move (s : State) (m : Move) : Prop :=
  s.is_free (s.player.add m) ∨
    (m.push = true ∧ s.player.add m ∈ s.boxes ∧ s.is_free ((s.player.add m).add m))

instance (s : State) (m : Move) : Decidable (s.can_move m) := by
  unfold State.can_move; exact inferInstance

/-- `State.move(move, _clear_redo)`: if the move is legal, relocate the
player, push a box if the new player cell held one, append the
actually-realized move to the history and (when `_clear_redo`) clear the
redo stack; return whether the move succeeded.  The Python method mutates
`self` and returns a boolean; here the updated state is returned together
with that boolean. -/
def State.moveD (s : State) (m : Move) (clearRedo : Bool) : State × Bool :=
  if s.can_move m then
    ({ level := s.level
       boxes :=
         if s.player.add m ∈ s.boxes then
           insert ((s.player.add m).add m) (s.boxes.erase (s.player.add m))
         else s.boxes
       player := s.player.add m
       history := s.history ++ [⟨m.dr, m.dc, decide (s.player.add m ∈ s.boxes)⟩]
       redoable := if clearRedo then [] else s.redoable }, true)
  else (s, false)

/-- `State.move` with the default `_clear_redo=True`. -/
def State.move (s : State) (m : Move) : State × Bool := s.moveD m true

/-- `State.undo`: pop the last history entry (a Python list pops at the
end), pull a pushed box back, move the player to the inverse position and
push the undone move onto the redo stack.  Returns the popped move
(`none` when the history is empty, in which case nothing changes). -/
def State.undo (s : State) : State × Option Move :=
  match s.history.getLast? with
  | none => (s, none)
  | some m =>
      ({ level := s.level
         boxes :=
           if m.push then (insert s.player s.boxes).erase (s.player.add m)
           else s.boxes
         player := s.player.add m.inv
         history := s.history.dropLast
         redoable := s.redoable ++ [m] }, some m)

/-- `State.redo`: pop the redo stack and replay that move via `move` with
`_clear_redo=False`; no-op when the redo stack is empty. -/
def State.redo (s : State) : State :=
  match s.redoable.getLast? with
  | none => s
  | some m => (({ s with redoable := s.redoable.dropLast }).moveD m false).1

/-- `State.is_solved`: every goal tile has a box on it. -/
def State.is_solved (s : State) : Prop := ∀ g ∈ s.level.goals, g ∈ s.boxes

instance (s : State) : Decidable (s.is_solved) := by
  unfold State.is_solved; exact inferInstance

/-- The four cardinal non-push moves, in the order of `search.MOVES`. -/
def MOVES : List Move := [⟨0, 1, false⟩, ⟨0, -1, false⟩, ⟨-1, 0, false⟩, ⟨1, 0, false⟩]

/-- The four cardinal push moves (`search.MOVES_P`). -/
def MOVES_P : List Move := MOVES.map (fun m => ⟨m.dr, m.dc, true⟩)

/-- Replaying a move sequence on a state, checking `can_move` before each
move and applying it through `State.move`; `none` when some move of the
sequence is illegal at its point of application. -/
def replay (s : State) : List Move → Option State
  | [] => some s
  | m :: ms => if s.can_move m then replay (s.move m).1 ms else none

/-- The dynamics-relevant part of a state: the level, the box set and
the player position (`history`/`redoable` never influence which moves
are legal or what they do to boxes and player). -/
def coreOf (s : State) : Level × Finset Pos × Pos := (s.level, s.boxes, s.player)

/-- The cell `goal` is reachable from the mover through free cells (each
step of the path enters a free cell). -/
def freeReach (s : State) (goal : Pos) : Prop :=
  Relation.ReflTransGen (fun a b => (∃ m ∈ MOVES, b = a.add m) ∧ s.is_free b) s.player goal

/-! Flood fills.  `reachable` and the two phases of `find_deadends` are
the same loop (FIFO queue, `seen` check on pop, neighbour generation)
with three different neighbour functions, so the loop is embedded once.
The fuel argument models the unbounded Python `while queue:` loop:
`none` means the loop did not finish within `fuel` iterations. -/
def bfsRun (next : Pos → List Pos) : Nat → List Pos → Finset Pos → Option (Finset Pos)
  | 0, _, _ => none
  | _ + 1, [], seen => some seen
  | fuel + 1, p :: rest, seen =>
      if p ∈ seen then bfsRun next fuel rest seen
      else bfsRun next fuel (rest ++ next p) (insert p seen)

/-- The set a flood fill computes: everything reachable from the initial
queue through the neighbour function. -/
def nextClosure (next : Pos → List Pos) (init : List Pos) : Set Pos :=
  {p | ∃ a ∈ init, Relation.ReflTransGen (fun x y => y ∈ next x) a p}

/-- Neighbour generation of `search.reachable`: adjacent free cells. -/
def reachNext (s : State) (p : Pos) : List Pos :=
  (MOVES.map p.add).filter (fun q => decide (s.is_free q))

/-- `search.reachable(state)`: flood fill from the player over free
cells, with fuel. -/
def reachableRun (s : State) (fuel : Nat) : Option (Finset Pos) :=
  bfsRun (reachNext s) fuel [s.player] ∅

/-- `reachable(state)` terminates (the queue of the flood fill empties
after finitely many iterations). -/
def reachableTerminates (s : State) : Prop := ∃ fuel r, reachableRun s fuel = some r

/-- The set of cells the player can reach from its current position
without pushing a box (each step enters a free cell). -/
def reachSet (s : State) : Set Pos :=
  {p | Relation.ReflTransGen (fun x y => (∃ m ∈ MOVES, y = x.add m) ∧ s.is_free y) s.player p}

/-- The elements of a finite set of positions as a sorted list.  Python
iterates a `set`/`frozenset` in unspecified order; this embedding fixes
the ascending order.  (Insertion sort is used because it is structurally
recursive, so concrete instances evaluate inside the kernel.) -/
def sortedPos (s : Finset Pos) : List Pos :=
  Quot.liftOn s.val (fun l => l.insertionSort (· ≤ ·)) (fun a b h =>
    List.eq_of_perm_of_sorted
      ((List.perm_insertionSort _ a).trans
        ((Quotient.exact (Quot.sound h)).trans (List.perm_insertionSort _ b).symm))
      (List.sorted_insertionSort _ a)
      (List.sorted_insertionSort _ b))

/-- Neighbour generation of step 1 of `find_deadends`: any adjacent
non-wall cell. -/
def floorNext (lvl : Level) (p : Pos) : List Pos :=
  (MOVES.map p.add).filter (fun q => decide (q ∉ lvl.walls))

/-- Neighbour generation of step 2 of `find_deadends`: an adjacent
non-wall cell whose further cell in the same direction is also
non-wall. -/
def bufferNext (lvl : Level) (p : Pos) : List Pos :=
  MOVES.filterMap (fun m =>
    if p.add m ∉ lvl.walls ∧ (p.add m).add m ∉ lvl.walls then some (p.add m) else none)

/-- `search.find_deadends(level)`: flood the goal-reachable floor, flood
the floor reachable with a one-cell buffer to the next wall, and return
the difference. -/
def find_deadends (lvl : Level) (fuel : Nat) : Option (Finset Pos) :=
  match bfsRun (floorNext lvl) fuel (sortedPos lvl.goals) ∅ with
  | none => none
  | some floor =>
      match bfsRun (bufferNext lvl) fuel (sortedPos lvl.goals) ∅ with
      | none => none
      | some visited => some (floor \ visited)

/-- Modelled from the spec: set `F` of §4.3 — "flood fill from all goal
cells through any non-wall cell". -/
def specF (lvl : Level) : Set Pos :=
  {p | ∃ g ∈ lvl.goals,
    Relation.ReflTransGen (fun a b => (∃ m ∈ MOVES, b = a.add m) ∧ b ∉ lvl.walls) g p}

/-- Modelled from the spec: set `P` of §4.3 — "flood fill from all goal
cells, admitting a step to a neighboring non-wall cell only if the cell
two steps further in the same direction is also non-wall". -/
def specP (lvl : Level) : Set Pos :=
  {p | ∃ g ∈ lvl.goals,
    Relation.ReflTransGen
      (fun a b => ∃ m ∈ MOVES, b = a.add m ∧ b ∉ lvl.walls ∧ b.add m ∉ lvl.walls) g p}

/-- One neighbour round of `find_path`'s BFS: for each move `m` (in the
order of `MOVES`) enqueue the adjacent free, unvisited cell and mark it
visited. -/
def expandPath (s : State) (p : Pos) (path : List Move) :
    List Move → List (Pos × List Move) → Finset Pos → List (Pos × List Move) × Finset Pos
  | [], q, v => (q, v)
  | m :: ms, q, v =>
      if s.is_free (p.add m) ∧ p.add m ∉ v then
        expandPath s p path ms (q ++ [(p.add m, path ++ [m])]) (insert (p.add m) v)
      else expandPath s p path ms q v

/-- The `while queue:` loop of `find_path` (FIFO queue of
(position, path) pairs, `visited` marked at enqueue time). -/
def findPathLoop (s : State) (goal : Pos) :
    Nat → List (Pos × List Move) → Finset Pos → Option (Option (List Move))
  | 0, _, _ => none
  | _ + 1, [], _ => some none
  | fuel + 1, (p, path) :: rest, visited =>
      if p = goal then some (some path)
      else
        findPathLoop s goal fuel (expandPath s p path MOVES rest visited).1
          (expandPath s p path MOVES rest visited).2

/-- `search.find_path(state, goal)`: `none` = the loop ran out of fuel,
`some none` = Python's `None` ("no path"), `some (some p)` = a path. -/
def find_path (s : State) (goal : Pos) (fuel : Nat) : Option (Option (List Move)) :=
  if ¬ s.is_free goal then some none
  else if s.player = goal then some (some [])
  else findPathLoop s goal fuel [(s.player, [])] ∅

/-- Remove a minimal element (earliest occurrence) with respect to `le`
from a list.  `heapq.heappop` always returns a minimal element of the
heap with respect to Python's total tuple order; equal tuples are
interchangeable, so extracting the earliest minimum is observationally
the same. -/
def popMinBy (le : α → α → Bool) : List α → Option (α × List α)
  | [] => none
  | x :: xs =>
      match popMinBy le xs with
      | none => some (x, [])
      | some (m, r) => if le x m then some (x, xs) else some (m, x :: r)

/-- Python `<` on positions (tuple comparison). -/
def Pos.ltB (a b : Pos) : Bool := a.r < b.r || (a.r = b.r && a.c < b.c)

/-- Python `<` on moves (tuple comparison, `False < True`). -/
def Move.ltB (a b : Move) : Bool :=
  a.dr < b.dr || (a.dr = b.dr &&
    (a.dc < b.dc || (a.dc = b.dc && (!a.push && b.push))))

/-- Python `<` on lists of moves (lexicographic list comparison). -/
def listMoveLtB : List Move → List Move → Bool
  | [], [] => false
  | [], _ :: _ => true
  | _ :: _, [] => false
  | a :: as, b :: bs => a.ltB b || (a = b && listMoveLtB as bs)

/-- A node of `plan_push`'s priority queue:
(priority, box position, player position, path). -/
abbrev PPNode := Nat × Pos × Pos × List Move

/-- Python `<` on `plan_push` heap entries (4-tuple comparison). -/
def ppLtB (a b : PPNode) : Bool :=
  a.1 < b.1 || (a.1 = b.1 &&
    (a.2.1.ltB b.2.1 || (a.2.1 = b.2.1 &&
      (a.2.2.1.ltB b.2.2.1 || (a.2.2.1 = b.2.2.1 && listMoveLtB a.2.2.2 b.2.2.2)))))

/-- Total `≤` induced by `ppLtB`. -/
def ppLe (a b : PPNode) : Bool := !(ppLtB b a)

/-- Expansion step of `plan_push`: for each push direction (in the order
of `MOVES_P`), if the box's next cell is free in the synthetic state and
not a deadend, plan the player's repositioning with `find_path` and emit
the successor node.  `none` = some inner `find_path` ran out of fuel. -/
def expandPush (state2 : State) (goal box : Pos) (path : List Move) (fpFuel : Nat) :
    List Move → Option (List PPNode)
  | [] => some []
  | m :: ms =>
      if state2.is_free (box.add m) ∧ box.add m ∉ state2.level.deadends then
        match find_path state2 (box.add m.inv) fpFuel with
        | none => none
        | some none => expandPush state2 goal box path fpFuel ms
        | some (some positioning) =>
            match expandPush state2 goal box path fpFuel ms with
            | none => none
            | some rest =>
                some (((path ++ positioning ++ [m]).length + (box.add m).dist goal,
                       box.add m, box, path ++ positioning ++ [m]) :: rest)
      else expandPush state2 goal box path fpFuel ms

/-- The `while queue:` loop of `plan_push` (A* over
(box position, player position) pairs). -/
def planPushLoop (s : State) (start goal : Pos) (fpFuel : Nat) :
    Nat → List PPNode → Finset (Pos × Pos) → Option (Option (List Move))
  | 0, _, _ => none
  | fuel + 1, queue, visited =>
      match popMinBy ppLe queue with
      | none => some none
      | some ((_, box, player, path), rest) =>
          if box = goal then some (some path)
          else if (box, player) ∈ visited then
            planPushLoop s start goal fpFuel fuel rest visited
          else
            match expandPush
                ⟨s.level, (s.boxes \ {start}) ∪ {box}, player, [], []⟩
                goal box path fpFuel MOVES_P with
            | none => none
            | some newNodes =>
                planPushLoop s start goal fpFuel fuel (rest ++ newNodes)
                  (insert (box, player) visited)

/-- `search.plan_push(state, start, goal)` with fuel; the initial queue
holds `(start.dist(goal), start, state.player, [])`. -/
def plan_push (s : State) (start goal : Pos) (fuel : Nat) : Option (Option (List Move)) :=
  planPushLoop s start goal fuel fuel [(start.dist goal, start, s.player, [])] ∅

/-- `solver.USE_FF` is `False` in the source. -/
def USE_FF : Bool := false

/-- `solver.fingerprint(state)`: with `USE_FF = False` this is the pair
(boxes, player position); the `min(reachable(state))` branch is dead
code under the module constant. -/
def fingerprint (s : State) : Finset Pos × Pos := (s.boxes, s.player)

/-- `solver.solveable(state)`: no box is on a deadend cell. -/
def solveable (s : State) : Prop := ¬ ∃ b ∈ s.boxes, b ∈ s.level.deadends

instance (s : State) : Decidable (solveable s) := by
  unfold solveable; exact inferInstance

/-- A node of `solve`'s priority queue:
(cost, insertion counter, state, path). -/
abbrev SNode := Nat × Nat × State × List Move

/-- Python `<` on `solve` heap entries: the insertion counter is unique,
so the comparison never reaches the `State` component (which would raise
in Python). -/
def snodeLe (a b : SNode) : Bool := a.1 < b.1 || (a.1 = b.1 && a.2.1 ≤ b.2.1)

/-- Apply a list of moves through `State.move`, ignoring the returned
booleans, as `solve` does when building a successor state. -/
def applyMoves (s : State) (ms : List Move) : State :=
  ms.foldl (fun t m => (t.move m).1) s

/-- Inner expansion loop of `solve` over the four directions for one
box: a candidate target must be free and not a deadend; a successful
`plan_push` yields a successor node numbered by the running counter. -/
def expandSolveDirs (lvl : Level) (ppFuel : Nat) (st : State) (path : List Move) (box : Pos) :
    List Move → Nat → Option (List SNode × Nat)
  | [], cnt => some ([], cnt)
  | m :: ms, cnt =>
      if st.is_free (box.add m) ∧ box.add m ∉ lvl.deadends then
        match plan_push st box (box.add m) ppFuel with
        | none => none
        | some none => expandSolveDirs lvl ppFuel st path box ms cnt
        | some (some p) =>
            match expandSolveDirs lvl ppFuel st path box ms (cnt + 1) with
            | none => none
            | some (rest, cnt') =>
                some (((path ++ p).length, cnt, applyMoves st.copy p, path ++ p) :: rest, cnt')
      else expandSolveDirs lvl ppFuel st path box ms cnt

/-- Outer expansion loop of `solve` over all boxes. -/
def expandSolve (lvl : Level) (ppFuel : Nat) (st : State) (path : List Move) :
    List Pos → Nat → Option (List SNode × Nat)
  | [], cnt => some ([], cnt)
  | box :: boxes, cnt =>
      match expandSolveDirs lvl ppFuel st path box MOVES cnt with
      | none => none
      | some (nodes, cnt') =>
          match expandSolve lvl ppFuel st path boxes cnt' with
          | none => none
          | some (nodes', cnt'') => some (nodes ++ nodes', cnt'')

/-- The `while heap:` loop of `solve`: pop the minimum, drop the node if
its fingerprint was already seen, record the fingerprint, return the
path if solved, else expand. -/
def solveLoop (lvl : Level) (ppFuel : Nat) :
    Nat → List SNode → Finset (Finset Pos × Pos) → Nat → Option (Option (List Move))
  | 0, _, _, _ => none
  | fuel + 1, heap, seen, cnt =>
      match popMinBy snodeLe heap with
      | none => some none
      | some ((_, _, st, path), rest) =>
          if fingerprint st ∈ seen then solveLoop lvl ppFuel fuel rest seen cnt
          else if st.is_solved then some (some path)
          else
            match expandSolve lvl ppFuel st path (sortedPos st.boxes) cnt with
            | none => none
            | some (newNodes, cnt') =>
                solveLoop lvl ppFuel fuel (rest ++ newNodes)
                  (insert (fingerprint st) seen) cnt'

/-- `solver.solve(state)`: compute and cache the level's deadends, then
run the best-first search from `(0, 0, state, [])`. -/
def solve (s : State) (fuel : Nat) : Option (Option (List Move)) :=
  match find_deadends s.level fuel with
  | none => none
  | some de =>
      solveLoop { s.level with deadends := de } fuel fuel
        [(0, 0, { s with level := { s.level with deadends := de } }, [])] ∅ 1

/-! Concrete levels and states used to witness or refute the claims. -/

/-- Walls of an open rectangular room: the border of a grid with `R`
interior rows and `C` interior columns, no internal walls. -/
def openRoomWalls (R C : Nat) : Finset Pos :=
  (((Finset.range (R + 2)) ×ˢ (Finset.range (C + 2))).filter
    (fun rc => rc.1 = 0 ∨ rc.1 = R + 1 ∨ rc.2 = 0 ∨ rc.2 = C + 1)).image
    (fun rc => ⟨rc.1, rc.2⟩)

/-- An open rectangular room fully enclosed by walls, with no internal
walls, and the given goal cells. -/
def openRoom (R C : Nat) (goals : Finset Pos) : Level :=
  ⟨openRoomWalls R C, goals, ∅⟩

/-- A cell of the room's interior (floor). -/
def inInterior (R C : Nat) (p : Pos) : Prop :=
  1 ≤ p.r ∧ p.r ≤ R ∧ 1 ≤ p.c ∧ p.c ≤ C

instance (R C : Nat) (p : Pos) : Decidable (inInterior R C p) := by
  unfold inInterior; exact inferInstance

/-- All goal cells lie in the room's interior. -/
def goalsInInterior (R C : Nat) (goals : Finset Pos) : Prop :=
  ∀ g ∈ goals, inInterior R C g

instance (R C : Nat) (goals : Finset Pos) : Decidable (goalsInInterior R C goals) := by
  unfold goalsInInterior; exact inferInstance

/-- A one-row corridor level `#####/#...#/#####` with no goals. -/
def corridorLvl : Level := openRoom 1 3 ∅

/-- Corridor state with a box at (1,2) and the player at (1,1). -/
def corridorState : State := ⟨corridorLvl, {⟨1, 2⟩}, ⟨1, 1⟩, [], []⟩

/-- Corridor state with no boxes. -/
def corridorEmpty : State := ⟨corridorLvl, ∅, ⟨1, 1⟩, [], []⟩

/-- Corridor level with a goal at (1,3). -/
def corridorGoalLvl : Level := openRoom 1 3 {⟨1, 3⟩}

/-- State on `corridorGoalLvl`: boxes at (1,1) and (1,3), player at
(1,2); the goal is covered, and (1,1) is a deadend cell. -/
def cornerBoxState : State := ⟨corridorGoalLvl, {⟨1, 1⟩, ⟨1, 3⟩}, ⟨1, 2⟩, [], []⟩

/-- `cornerBoxState` with the deadend cache filled the way `solve` fills
it. -/
def cornerBoxState' : State :=
  ⟨{ corridorGoalLvl with deadends := {⟨1, 1⟩} }, {⟨1, 1⟩, ⟨1, 3⟩}, ⟨1, 2⟩, [], []⟩

/-- An open 3×3 room with the single goal at its centre. -/
def room33 : Level := openRoom 3 3 {⟨2, 2⟩}

/-- The deadend set `find_deadends` computes for `room33`. -/
def room33Deadends : Finset Pos := (find_deadends room33 60).get (by decide)

/-- The interior (floor) cells of an open room as a finite set. -/
def interiorCells (R C : Nat) : Finset Pos :=
  ((Finset.range R) ×ˢ (Finset.range C)).image (fun rc => ⟨rc.1 + 1, rc.2 + 1⟩)

/-- The goal-reachable floor (step 1 of `find_deadends`) of `room33`. -/
def room33FloorFlood : Finset Pos :=
  (bfsRun (floorNext room33) 60 (sortedPos room33.goals) ∅).getD ∅


/-- A level with a single wall cell: its non-wall area is unbounded. -/
def oneWallLvl : Level := ⟨{⟨0, 0⟩}, ∅, ∅⟩

/-- Degenerate state whose player stands on the single wall cell. -/
def onWallState : State := ⟨oneWallLvl, ∅, ⟨0, 0⟩, [], []⟩

/-- State on the unbounded level: the player's free-reachable region is
infinite. -/
def unboundedState : State := ⟨oneWallLvl, ∅, ⟨1, 1⟩, [], []⟩

/-! ### Basic lemmas about the state model -/

theorem Pos.add_mk_inv (p : Pos) (m : Move) (b : Bool) :
    (p.add m).add (Move.mk m.dr m.dc b).inv = p := by
  cases p
  simp only [Pos.add, Move.inv, Pos.mk.injEq]
  constructor <;> ring

theorem State.copy_can_move (s : State) (m : Move) :
    s.copy.can_move m ↔ s.can_move m := Iff.rfl

/-! ### C3: move/undo round-trip -/

/-- C3: for every state `S` and legal move `m`, `S.copy().move(m)`
followed by `.undo()` reproduces the block set and the mover position of
`S` exactly. -/
theorem moveUndoRoundtrip (s : State) (m : Move) (h : s.can_move m) :
    (((s.copy.move m).1).undo).1.boxes = s.boxes ∧
    (((s.copy.move m).1).undo).1.player = s.player := by
  have hc : s.copy.can_move m := h
  by_cases hp : s.player.add m ∈ s.boxes
  · have hfree : s.is_free ((s.player.add m).add m) := by
      rcases h with hf | ⟨_, _, hf⟩
      · exact absurd hp hf.2
      · exact hf
    have hd : (s.player.add m).add m ∉ s.boxes := hfree.2
    have hne : (s.player.add m).add m ≠ s.player.add m := by
      intro he
      exact hd (by rw [he]; exact hp)
    have hdec : decide (s.player.add m ∈ s.boxes) = true := by simp [hp]
    have hmove : (s.copy.move m).1 =
        { level := s.level,
          boxes := insert ((s.player.add m).add m) (s.boxes.erase (s.player.add m)),
          player := s.player.add m,
          history := s.history ++ [⟨m.dr, m.dc, true⟩],
          redoable := [] } := by
      unfold State.move State.moveD
      rw [if_pos hc]
      simp [State.copy, hp, hdec]
    rw [hmove]
    unfold State.undo
    simp only [List.getLast?_concat]
    have hadd : (s.player.add m).add (Move.mk m.dr m.dc true) = (s.player.add m).add m := rfl
    refine ⟨?_, Pos.add_mk_inv s.player m true⟩
    show ((insert (s.player.add m)
        (insert ((s.player.add m).add m) (s.boxes.erase (s.player.add m)))).erase
          ((s.player.add m).add (Move.mk m.dr m.dc true))) = s.boxes
    rw [hadd]
    ext x
    by_cases hxd : x = (s.player.add m).add m
    · subst hxd
      simp [hd]
    · by_cases hxp : x = s.player.add m
      · subst hxp
        simp [hxd, hp]
      · simp [hxd, hxp]
  · have hdec : decide (s.player.add m ∈ s.boxes) = false := by simp [hp]
    have hmove : (s.copy.move m).1 =
        { level := s.level,
          boxes := s.boxes,
          player := s.player.add m,
          history := s.history ++ [⟨m.dr, m.dc, false⟩],
          redoable := [] } := by
      unfold State.move State.moveD
      rw [if_pos hc]
      simp [State.copy, hp, hdec]
    rw [hmove]
    unfold State.undo
    simp only [List.getLast?_concat]
    exact ⟨rfl, Pos.add_mk_inv s.player m false⟩

/-- Witness for C3 at a concrete push move in the corridor level. -/
theorem moveUndoRoundtripWitness :
    corridorState.can_move ⟨0, 1, true⟩ ∧
    ((((corridorState.copy.move ⟨0, 1, true⟩).1).undo).1.boxes = corridorState.boxes ∧
     ((((corridorState.copy.move ⟨0, 1, true⟩).1).undo).1.player = corridorState.player)) :=
  ⟨by decide, moveUndoRoundtrip corridorState ⟨0, 1, true⟩ (by decide)⟩

/-! ### C7: illegal operations change nothing -/

/-- C7: `move` returns a boolean (never an exception is modelled: the
embedding is a total function); an illegal move returns `false` and
leaves the whole state unchanged, and `undo` on an empty history and
`redo` on an empty redo stack are no-ops. -/
theorem illegalOpsNoop (s₁ s₂ s₃ : State) (m : Move) :
    (¬ s₁.can_move m → s₁.move m = (s₁, false)) ∧
    (s₂.history = [] → s₂.undo = (s₂, none)) ∧
    (s₃.redoable = [] → s₃.redo = s₃) := by
  refine ⟨fun h => ?_, fun h => ?_, fun h => ?_⟩
  · unfold State.move State.moveD
    rw [if_neg h]
  · unfold State.undo
    rw [h]
    rfl
  · unfold State.redo
    rw [h]
    rfl

/-- Witness for C7: in the corridor, a non-push move into the box cell
is illegal and rejected; undo/redo on the fresh state are no-ops. -/
theorem illegalOpsNoopWitness :
    (¬ corridorState.can_move ⟨0, 1, false⟩ ∧
      corridorState.move ⟨0, 1, false⟩ = (corridorState, false)) ∧
    corridorState.undo = (corridorState, none) ∧
    corridorState.redo = corridorState :=
  ⟨⟨by decide, (illegalOpsNoop corridorState corridorState corridorState ⟨0, 1, false⟩).1
      (by decide)⟩,
   (illegalOpsNoop corridorState corridorState corridorState ⟨0, 1, false⟩).2.1 rfl,
   (illegalOpsNoop corridorState corridorState corridorState ⟨0, 1, false⟩).2.2 rfl⟩

/-! ### C8: history/redo coupling -/

/-- C8: a successful externally invoked move clears the redo stack; a
successful undo pushes the undone move onto the redo stack; redo pops
the redo stack and replays the popped move via `move` without clearing
the remaining redo stack. -/
theorem historyRedoCoupling (s₁ s₂ s₃ : State) (m₁ m₂ m₃ : Move)
    (h₁ : s₁.can_move m₁)
    (h₂ : s₂.history.getLast? = some m₂)
    (h₃ : s₃.redoable.getLast? = some m₃)
    (h₃' : ({ s₃ with redoable := s₃.redoable.dropLast } : State).can_move m₃) :
    ((s₁.move m₁).1).redoable = [] ∧
    ((s₂.undo).1).redoable = s₂.redoable ++ [m₂] ∧
    ((s₃.redo).redoable = s₃.redoable.dropLast ∧
     (s₃.redo).player = s₃.player.add m₃) := by
  have hredo : s₃.redo = (({ s₃ with redoable := s₃.redoable.dropLast } : State).moveD m₃ false).1 := by
    unfold State.redo
    rw [h₃]
  refine ⟨?_, ?_, ?_, ?_⟩
  · unfold State.move State.moveD
    rw [if_pos h₁]
    rfl
  · unfold State.undo
    rw [h₂]
  · rw [hredo]
    unfold State.moveD
    rw [if_pos h₃']
    rfl
  · rw [hredo]
    unfold State.moveD
    rw [if_pos h₃']

/-- Witness for C8 in the corridor: a push move clears the redo stack,
an undo pushes onto it, and a redo replays without clearing. -/
theorem historyRedoCouplingWitness :
    ((corridorState.move ⟨0, 1, true⟩).1).redoable = [] ∧
    (((⟨corridorLvl, {⟨1, 2⟩}, ⟨1, 1⟩, [⟨0, 1, false⟩], [⟨1, 0, false⟩]⟩ : State).undo).1).redoable
      = [⟨1, 0, false⟩, ⟨0, 1, false⟩] ∧
    (((⟨corridorLvl, {⟨1, 2⟩}, ⟨1, 1⟩, [], [⟨0, 1, true⟩]⟩ : State).redo).redoable = [] ∧
     ((⟨corridorLvl, {⟨1, 2⟩}, ⟨1, 1⟩, [], [⟨0, 1, true⟩]⟩ : State).redo).player =
       (⟨1, 1⟩ : Pos).add ⟨0, 1, true⟩) :=
  historyRedoCoupling corridorState
    ⟨corridorLvl, {⟨1, 2⟩}, ⟨1, 1⟩, [⟨0, 1, false⟩], [⟨1, 0, false⟩]⟩
    ⟨corridorLvl, {⟨1, 2⟩}, ⟨1, 1⟩, [], [⟨0, 1, true⟩]⟩
    ⟨0, 1, true⟩ ⟨0, 1, false⟩ ⟨0, 1, true⟩
    (by decide) (by decide) (by decide) (by decide)

/-! ### C10: copy semantics -/

/-- C10: `copy` produces a state with equal block set, mover position
and history, but an empty redo stack, so moves undone before copying can
never be redone on the copy (`redo` on the copy is a no-op). -/
theorem copySemantics (s : State) :
    s.copy.level = s.level ∧ s.copy.boxes = s.boxes ∧ s.copy.player = s.player ∧
    s.copy.history = s.history ∧ s.copy.redoable = [] ∧ s.copy.redo = s.copy :=
  ⟨rfl, rfl, rfl, rfl, rfl, rfl⟩

/-! ### Generic flood-fill lemmas -/

theorem bfsRun_mono (next : Pos → List Pos) :
    ∀ (fuel : Nat) (q : List Pos) (seen s : Finset Pos),
      bfsRun next fuel q seen = some s → bfsRun next (fuel + 1) q seen = some s := by
  intro fuel
  induction fuel with
  | zero => intro q seen s h; simp [bfsRun] at h
  | succ n ih =>
      intro q seen s h
      cases q with
      | nil => exact h
      | cons p rest =>
          simp only [bfsRun] at h ⊢
          by_cases hp : p ∈ seen
          · rw [if_pos hp] at h ⊢
            exact ih _ _ _ h
          · rw [if_neg hp] at h ⊢
            exact ih _ _ _ h

theorem bfsRun_subset (next : Pos → List Pos) :
    ∀ (fuel : Nat) (q : List Pos) (seen s : Finset Pos),
      bfsRun next fuel q seen = some s → seen ⊆ s ∧ ∀ x ∈ q, x ∈ s := by
  intro fuel
  induction fuel with
  | zero => intro q seen s h; simp [bfsRun] at h
  | succ n ih =>
      intro q seen s h
      cases q with
      | nil =>
          simp only [bfsRun, Option.some.injEq] at h
          subst h
          exact ⟨Finset.Subset.refl _, by simp⟩
      | cons p rest =>
          simp only [bfsRun] at h
          by_cases hp : p ∈ seen
          · rw [if_pos hp] at h
            obtain ⟨h1, h2⟩ := ih _ _ _ h
            refine ⟨h1, ?_⟩
            intro x hx
            rcases List.mem_cons.mp hx with hx | hx
            · exact h1 (hx ▸ hp)
            · exact h2 x hx
          · rw [if_neg hp] at h
            obtain ⟨h1, h2⟩ := ih _ _ _ h
            refine ⟨fun x hx => h1 (Finset.mem_insert_of_mem hx), ?_⟩
            intro x hx
            rcases List.mem_cons.mp hx with hx | hx
            · exact h1 (hx ▸ Finset.mem_insert_self p seen)
            · exact h2 x (List.mem_append_left _ hx)

theorem bfsRun_closed (next : Pos → List Pos) :
    ∀ (fuel : Nat) (q : List Pos) (seen s : Finset Pos),
      bfsRun next fuel q seen = some s →
      (∀ x ∈ seen, ∀ y ∈ next x, y ∈ seen ∨ y ∈ q) →
      ∀ x ∈ s, ∀ y ∈ next x, y ∈ s := by
  intro fuel
  induction fuel with
  | zero => intro q seen s h; simp [bfsRun] at h
  | succ n ih =>
      intro q seen s h hinv
      cases q with
      | nil =>
          simp only [bfsRun, Option.some.injEq] at h
          subst h
          intro x hx y hy
          rcases hinv x hx y hy with h' | h'
          · exact h'
          · simp at h'
      | cons p rest =>
          simp only [bfsRun] at h
          by_cases hp : p ∈ seen
          · rw [if_pos hp] at h
            refine ih _ _ _ h ?_
            intro x hx y hy
            rcases hinv x hx y hy with h' | h'
            · exact Or.inl h'
            · rcases List.mem_cons.mp h' with h'' | h''
              · exact Or.inl (h'' ▸ hp)
              · exact Or.inr h''
          · rw [if_neg hp] at h
            refine ih _ _ _ h ?_
            intro x hx y hy
            rcases Finset.mem_insert.mp hx with hx' | hx'
            · subst hx'
              exact Or.inr (List.mem_append_right _ hy)
            · rcases hinv x hx' y hy with h' | h'
              · exact Or.inl (Finset.mem_insert_of_mem h')
              · rcases List.mem_cons.mp h' with h'' | h''
                · exact Or.inl (h'' ▸ Finset.mem_insert_self p seen)
                · exact Or.inr (List.mem_append_left _ h'')

theorem bfsRun_sound (next : Pos → List Pos) (C : Set Pos) :
    ∀ (fuel : Nat) (q : List Pos) (seen s : Finset Pos),
      bfsRun next fuel q seen = some s →
      (∀ x ∈ q, x ∈ C) → (∀ x ∈ seen, x ∈ C) →
      (∀ a ∈ C, ∀ y ∈ next a, y ∈ C) →
      ∀ x ∈ s, x ∈ C := by
  intro fuel
  induction fuel with
  | zero => intro q seen s h; simp [bfsRun] at h
  | succ n ih =>
      intro q seen s h hq hseen hC
      cases q with
      | nil =>
          simp only [bfsRun, Option.some.injEq] at h
          subst h
          exact hseen
      | cons p rest =>
          simp only [bfsRun] at h
          by_cases hp : p ∈ seen
          · rw [if_pos hp] at h
            exact ih _ _ _ h (fun x hx => hq x (List.mem_cons_of_mem p hx)) hseen hC
          · rw [if_neg hp] at h
            have hpC : p ∈ C := hq p (List.mem_cons_self p rest)
            refine ih _ _ _ h ?_ ?_ hC
            · intro x hx
              rcases List.mem_append.mp hx with hx' | hx'
              · exact hq x (List.mem_cons_of_mem p hx')
              · exact hC p hpC x hx'
            · intro x hx
              rcases Finset.mem_insert.mp hx with hx' | hx'
              · exact hx' ▸ hpC
              · exact hseen x hx'

theorem nextClosure_init (next : Pos → List Pos) (init : List Pos) :
    ∀ a ∈ init, a ∈ nextClosure next init := by
  intro a ha
  exact ⟨a, ha, Relation.ReflTransGen.refl⟩

theorem nextClosure_closed (next : Pos → List Pos) (init : List Pos) :
    ∀ a ∈ nextClosure next init, ∀ y ∈ next a, y ∈ nextClosure next init := by
  rintro a ⟨g, hg, hpath⟩ y hy
  exact ⟨g, hg, Relation.ReflTransGen.tail hpath hy⟩

/-- A flood fill that finishes computes exactly the closure of its
initial queue under the neighbour function. -/
theorem bfsRun_exact (next : Pos → List Pos) (fuel : Nat) (init : List Pos)
    (s : Finset Pos) (h : bfsRun next fuel init ∅ = some s) :
    (↑s : Set Pos) = nextClosure next init := by
  apply Set.eq_of_subset_of_subset
  · intro x hx
    exact bfsRun_sound next (nextClosure next init) fuel init ∅ s h
      (nextClosure_init next init) (by simp) (nextClosure_closed next init) x hx
  · rintro x ⟨g, hg, hpath⟩
    obtain ⟨hsub, hq⟩ := bfsRun_subset next fuel init ∅ s h
    have hclosed := bfsRun_closed next fuel init ∅ s h (by simp)
    induction hpath with
    | refl => exact hq g hg
    | tail _ hstep ih => exact hclosed _ ih _ hstep

theorem bfsRun_total_aux (next : Pos → List Pos) (C : Finset Pos)
    (hC : ∀ a ∈ C, ∀ y ∈ next a, y ∈ C) :
    ∀ (n : Nat) (seen : Finset Pos), (C \ seen).card ≤ n →
      ∀ (q : List Pos), (∀ x ∈ q, x ∈ C) →
        ∃ fuel s, bfsRun next fuel q seen = some s := by
  intro n
  induction n with
  | zero =>
      intro seen hcard q
      induction q with
      | nil => exact fun _ => ⟨1, seen, rfl⟩
      | cons p rest ihq =>
          intro hq
          by_cases hp : p ∈ seen
          · obtain ⟨fuel, s, hs⟩ := ihq (fun x hx => hq x (List.mem_cons_of_mem p hx))
            refine ⟨fuel + 1, s, ?_⟩
            simp only [bfsRun]
            rw [if_pos hp]
            exact hs
          · exfalso
            have hmem : p ∈ C \ seen :=
              Finset.mem_sdiff.mpr ⟨hq p (List.mem_cons_self p rest), hp⟩
            have := Finset.card_pos.mpr ⟨p, hmem⟩
            omega
  | succ n ih =>
      intro seen hcard q
      induction q with
      | nil => exact fun _ => ⟨1, seen, rfl⟩
      | cons p rest ihq =>
          intro hq
          by_cases hp : p ∈ seen
          · obtain ⟨fuel, s, hs⟩ := ihq (fun x hx => hq x (List.mem_cons_of_mem p hx))
            refine ⟨fuel + 1, s, ?_⟩
            simp only [bfsRun]
            rw [if_pos hp]
            exact hs
          · have hpC : p ∈ C := hq p (List.mem_cons_self p rest)
            have hcard' : (C \ insert p seen).card ≤ n := by
              rw [Finset.sdiff_insert]
              have hmem : p ∈ C \ seen := Finset.mem_sdiff.mpr ⟨hpC, hp⟩
              have := Finset.card_erase_of_mem hmem
              omega
            have hsub : ∀ x ∈ rest ++ next p, x ∈ C := by
              intro x hx
              rcases List.mem_append.mp hx with hx' | hx'
              · exact hq x (List.mem_cons_of_mem p hx')
              · exact hC p hpC x hx'
            obtain ⟨fuel, s, hs⟩ := ih (insert p seen) hcard' (rest ++ next p) hsub
            refine ⟨fuel + 1, s, ?_⟩
            simp only [bfsRun]
            rw [if_neg hp]
            exact hs

/-- A flood fill whose closure is finite terminates with enough fuel. -/
theorem bfsRun_total (next : Pos → List Pos) (init : List Pos)
    (hfin : (nextClosure next init).Finite) :
    ∃ fuel s, bfsRun next fuel init ∅ = some s := by
  classical
  refine bfsRun_total_aux next hfin.toFinset ?_ (hfin.toFinset \ ∅).card ∅ le_rfl init ?_
  · intro a ha y hy
    rw [Set.Finite.mem_toFinset] at ha ⊢
    exact nextClosure_closed next init a ha y hy
  · intro x hx
    rw [Set.Finite.mem_toFinset]
    exact nextClosure_init next init x hx

/-! ### C9: reachable -/

theorem mem_reachNext (s : State) (x y : Pos) :
    y ∈ reachNext s x ↔ (∃ m ∈ MOVES, y = x.add m) ∧ s.is_free y := by
  unfold reachNext
  simp only [List.mem_filter, List.mem_map, decide_eq_true_eq]
  constructor
  · rintro ⟨⟨m, hm, rfl⟩, hf⟩
    exact ⟨⟨m, hm, rfl⟩, hf⟩
  · rintro ⟨⟨m, hm, rfl⟩, hf⟩
    exact ⟨⟨m, hm, rfl⟩, hf⟩

theorem reachSet_eq (s : State) :
    reachSet s = nextClosure (reachNext s) [s.player] := by
  unfold reachSet nextClosure
  ext p
  simp only [Set.mem_setOf_eq, List.mem_singleton]
  constructor
  · intro h
    exact ⟨s.player, rfl,
      Relation.ReflTransGen.mono (fun a b hb => (mem_reachNext s a b).mpr hb) h⟩
  · rintro ⟨a, rfl, h⟩
    exact Relation.ReflTransGen.mono (fun a b hb => (mem_reachNext s a b).mp hb) h

theorem reachable_finite_of_run (s : State) (fuel : Nat) (r : Finset Pos)
    (h : reachableRun s fuel = some r) : (reachSet s).Finite := by
  have hx := bfsRun_exact _ fuel _ r h
  rw [reachSet_eq, ← hx]
  exact r.finite_toSet

/-- C9 (amended): for every state whose player-reachable free region is
finite, `reachable` terminates; any terminating run returns exactly the
connected set of cells the mover can reach without pushing a box, and
any two terminating runs return equal sets. -/
theorem reachableCorrect (s : State) (hfin : (reachSet s).Finite) :
    reachableTerminates s ∧
    (∀ fuel r, reachableRun s fuel = some r → (↑r : Set Pos) = reachSet s) ∧
    (∀ f₁ r₁ f₂ r₂, reachableRun s f₁ = some r₁ → reachableRun s f₂ = some r₂ →
      r₁ = r₂) := by
  have hchar : ∀ fuel r, reachableRun s fuel = some r → (↑r : Set Pos) = reachSet s := by
    intro fuel r h
    rw [reachSet_eq]
    exact bfsRun_exact _ fuel _ r h
  refine ⟨?_, hchar, ?_⟩
  · have hfin' : (nextClosure (reachNext s) [s.player]).Finite := by
      rw [← reachSet_eq]
      exact hfin
    obtain ⟨fuel, r, h⟩ := bfsRun_total _ _ hfin'
    exact ⟨fuel, r, h⟩
  · intro f₁ r₁ f₂ r₂ h₁ h₂
    exact Finset.coe_injective ((hchar f₁ r₁ h₁).trans (hchar f₂ r₂ h₂).symm)

/-- Witness for C9 (amended) on the corridor state: the run terminates
and returns exactly the player's cell (the box blocks the corridor). -/
theorem reachableCorrectWitness :
    reachableTerminates corridorState ∧
    (↑({⟨1, 1⟩} : Finset Pos) : Set Pos) = reachSet corridorState := by
  have hfin := reachable_finite_of_run corridorState 30 {⟨1, 1⟩} (by decide)
  exact ⟨(reachableCorrect corridorState hfin).1,
    (reachableCorrect corridorState hfin).2.1 30 {⟨1, 1⟩} (by decide)⟩

/-- C9 counterexample: on the level whose walls are the single cell
(0,0) — a legal `Level` value — the flood fill of `reachable` never
empties its queue: the claim's "for every state, reachable(state)
terminates" is false on the code. -/
theorem reachableDiverges : ¬ reachableTerminates unboundedState := by
  rintro ⟨fuel, r, h⟩
  have hx := bfsRun_exact _ fuel _ r h
  have hmem : ∀ n : ℕ, (⟨1, 1 + (n : Int)⟩ : Pos) ∈
      nextClosure (reachNext unboundedState) [unboundedState.player] := by
    intro n
    induction n with
    | zero =>
        refine ⟨unboundedState.player, by simp, ?_⟩
        have he : (⟨1, 1 + ((0 : ℕ) : Int)⟩ : Pos) = unboundedState.player := by
          show (⟨1, 1 + ((0 : ℕ) : Int)⟩ : Pos) = ⟨1, 1⟩
          norm_num
        rw [he]
    | succ k ih =>
        obtain ⟨a, ha, hpath⟩ := ih
        refine ⟨a, ha, hpath.tail ?_⟩
        refine (mem_reachNext _ _ _).mpr ⟨⟨⟨0, 1, false⟩, by decide, ?_⟩, ?_, ?_⟩
        · show (⟨1, 1 + ((k + 1 : ℕ) : Int)⟩ : Pos) = Pos.add ⟨1, 1 + (k : Int)⟩ ⟨0, 1, false⟩
          simp only [Pos.add, Pos.mk.injEq]
          constructor <;> omega
        · show (⟨1, 1 + ((k + 1 : ℕ) : Int)⟩ : Pos) ∉ ({⟨0, 0⟩} : Finset Pos)
          simp [Pos.mk.injEq]
        · show (⟨1, 1 + ((k + 1 : ℕ) : Int)⟩ : Pos) ∉ (∅ : Finset Pos)
          simp
  have hinj : Function.Injective (fun n : ℕ => (⟨1, 1 + (n : Int)⟩ : Pos)) := by
    intro a b hab
    have := congrArg Pos.c hab
    simp only at this
    omega
  have hinf := Set.infinite_of_injective_forall_mem hinj hmem
  exact hinf (hx ▸ r.finite_toSet)

/-! ### C4: find_deadends computes F − P -/

theorem mem_sortedPos (s : Finset Pos) (a : Pos) : a ∈ sortedPos s ↔ a ∈ s := by
  cases s with
  | mk val nodup =>
      induction val using Quot.inductionOn with
      | h l =>
          show a ∈ l.insertionSort (· ≤ ·) ↔ _
          rw [List.mem_insertionSort]
          simp [Finset.mem_mk]

theorem mem_floorNext (lvl : Level) (x y : Pos) :
    y ∈ floorNext lvl x ↔ (∃ m ∈ MOVES, y = x.add m) ∧ y ∉ lvl.walls := by
  unfold floorNext
  simp only [List.mem_filter, List.mem_map, decide_eq_true_eq]
  constructor
  · rintro ⟨⟨m, hm, rfl⟩, hw⟩
    exact ⟨⟨m, hm, rfl⟩, hw⟩
  · rintro ⟨⟨m, hm, rfl⟩, hw⟩
    exact ⟨⟨m, hm, rfl⟩, hw⟩

theorem mem_bufferNext (lvl : Level) (x y : Pos) :
    y ∈ bufferNext lvl x ↔
      ∃ m ∈ MOVES, y = x.add m ∧ y ∉ lvl.walls ∧ y.add m ∉ lvl.walls := by
  unfold bufferNext
  simp only [List.mem_filterMap]
  constructor
  · rintro ⟨m, hm, hf⟩
    by_cases hc : x.add m ∉ lvl.walls ∧ (x.add m).add m ∉ lvl.walls
    · rw [if_pos hc] at hf
      injection hf with hf
      subst hf
      exact ⟨m, hm, rfl, hc.1, hc.2⟩
    · rw [if_neg hc] at hf
      cases hf
  · rintro ⟨m, hm, rfl, h1, h2⟩
    exact ⟨m, hm, by rw [if_pos ⟨h1, h2⟩]⟩

theorem specF_eq (lvl : Level) :
    specF lvl = nextClosure (floorNext lvl) (sortedPos lvl.goals) := by
  unfold specF nextClosure
  ext p
  simp only [Set.mem_setOf_eq, mem_sortedPos]
  constructor
  · rintro ⟨g, hg, h⟩
    exact ⟨g, hg,
      Relation.ReflTransGen.mono (fun a b hb => (mem_floorNext lvl a b).mpr hb) h⟩
  · rintro ⟨g, hg, h⟩
    exact ⟨g, hg,
      Relation.ReflTransGen.mono (fun a b hb => (mem_floorNext lvl a b).mp hb) h⟩

theorem specP_eq (lvl : Level) :
    specP lvl = nextClosure (bufferNext lvl) (sortedPos lvl.goals) := by
  unfold specP nextClosure
  ext p
  simp only [Set.mem_setOf_eq, mem_sortedPos]
  constructor
  · rintro ⟨g, hg, h⟩
    exact ⟨g, hg,
      Relation.ReflTransGen.mono (fun a b hb => (mem_bufferNext lvl a b).mpr hb) h⟩
  · rintro ⟨g, hg, h⟩
    exact ⟨g, hg,
      Relation.ReflTransGen.mono (fun a b hb => (mem_bufferNext lvl a b).mp hb) h⟩

theorem find_deadends_exact (lvl : Level) (fuel : Nat) (s : Finset Pos)
    (h : find_deadends lvl fuel = some s) :
    (↑s : Set Pos) = specF lvl \ specP lvl := by
  unfold find_deadends at h
  cases h1 : bfsRun (floorNext lvl) fuel (sortedPos lvl.goals) ∅ with
  | none =>
      simp only [h1] at h
      exact Option.noConfusion h
  | some floor =>
      simp only [h1] at h
      cases h2 : bfsRun (bufferNext lvl) fuel (sortedPos lvl.goals) ∅ with
      | none =>
          simp only [h2] at h
          exact Option.noConfusion h
      | some visited =>
          simp only [h2, Option.some.injEq] at h
          subst h
          rw [Finset.coe_sdiff, bfsRun_exact _ fuel _ floor h1,
            bfsRun_exact _ fuel _ visited h2, specF_eq, specP_eq]

/-- C4: whenever `find_deadends(level)` finishes, its result is exactly
F − P, where F is the flood fill from all goals through non-wall cells
and P is the flood fill from all goals admitting a step only when the
cell two steps further in the same direction is also non-wall. -/
theorem findDeadendsSpec (lvl : Level) (fuel : Nat) (s : Finset Pos)
    (h : find_deadends lvl fuel = some s) :
    (↑s : Set Pos) = specF lvl \ specP lvl :=
  find_deadends_exact lvl fuel s h

/-- Witness for C4 on the 3×3 open room with a central goal. -/
theorem findDeadendsSpecWitness :
    find_deadends room33 60 = some room33Deadends ∧
    (↑room33Deadends : Set Pos) = specF room33 \ specP room33 :=
  ⟨(Option.some_get _).symm,
   findDeadendsSpec room33 60 room33Deadends (Option.some_get _).symm⟩

/-! ### C5: find_deadends on an open room -/

theorem mem_openRoomWalls (R C : Nat) (p : Pos) :
    p ∈ openRoomWalls R C ↔
      ((0 ≤ p.r ∧ p.r ≤ (R : Int) + 1 ∧ 0 ≤ p.c ∧ p.c ≤ (C : Int) + 1) ∧
       (p.r = 0 ∨ p.r = (R : Int) + 1 ∨ p.c = 0 ∨ p.c = (C : Int) + 1)) := by
  unfold openRoomWalls
  simp only [Finset.mem_image, Finset.mem_filter, Finset.mem_product, Finset.mem_range]
  constructor
  · rintro ⟨⟨a, b⟩, ⟨⟨ha, hb⟩, hcond⟩, rfl⟩
    dsimp only at *
    refine ⟨⟨by omega, by omega, by omega, by omega⟩, ?_⟩
    rcases hcond with h | h | h | h
    · exact Or.inl (by omega)
    · exact Or.inr (Or.inl (by omega))
    · exact Or.inr (Or.inr (Or.inl (by omega)))
    · exact Or.inr (Or.inr (Or.inr (by omega)))
  · rintro ⟨⟨h1, h2, h3, h4⟩, hcond⟩
    refine ⟨(p.r.toNat, p.c.toNat), ⟨⟨by omega, by omega⟩, ?_⟩, ?_⟩
    · rcases hcond with h | h | h | h
      · exact Or.inl (by omega)
      · exact Or.inr (Or.inl (by omega))
      · exact Or.inr (Or.inr (Or.inl (by omega)))
      · exact Or.inr (Or.inr (Or.inr (by omega)))
    · cases p with
      | mk pr pc =>
          dsimp only at h1 h2 h3 h4 ⊢
          simp only [Pos.mk.injEq]
          constructor <;> omega

theorem interior_not_wall (R C : Nat) (p : Pos) (h : inInterior R C p) :
    p ∉ openRoomWalls R C := by
  rw [mem_openRoomWalls]
  obtain ⟨h1, h2, h3, h4⟩ := h
  rintro ⟨-, hd⟩
  rcases hd with h | h | h | h <;> omega

theorem openRoomWalls_mk (R C : Nat) (pr pc : Int)
    (h1 : 0 ≤ pr) (h2 : pr ≤ (R : Int) + 1) (h3 : 0 ≤ pc) (h4 : pc ≤ (C : Int) + 1)
    (hd : pr = 0 ∨ pr = (R : Int) + 1 ∨ pc = 0 ∨ pc = (C : Int) + 1) :
    (⟨pr, pc⟩ : Pos) ∈ openRoomWalls R C :=
  (mem_openRoomWalls R C ⟨pr, pc⟩).mpr ⟨⟨h1, h2, h3, h4⟩, hd⟩

theorem interior_not_wall_mk (R C : Nat) (pr pc : Int) (h1 : 1 ≤ pr)
    (h2 : pr ≤ (R : Int)) (h3 : 1 ≤ pc) (h4 : pc ≤ (C : Int)) :
    (⟨pr, pc⟩ : Pos) ∉ openRoomWalls R C := by
  rw [mem_openRoomWalls]
  rintro ⟨-, hd⟩
  dsimp only at hd
  rcases hd with h | h | h | h <;> omega

theorem openRoom_walk_up (R C : Nat) (goals : Finset Pos) :
    ∀ (k : Nat) (r c : Int), 1 ≤ r → r + k ≤ (R : Int) → 1 ≤ c → c ≤ (C : Int) →
      Relation.ReflTransGen
        (fun a b => (∃ m ∈ MOVES, b = a.add m) ∧ b ∉ (openRoom R C goals).walls)
        ⟨r + (k : Int), c⟩ ⟨r, c⟩ := by
  intro k
  induction k with
  | zero =>
      intro r c _ _ _ _
      have he : (⟨r + ((0 : ℕ) : Int), c⟩ : Pos) = ⟨r, c⟩ := by
        simp
      rw [he]
  | succ k ih =>
      intro r c h1 h2 h3 h4
      refine Relation.ReflTransGen.head (b := ⟨r + (k : Int), c⟩) ⟨⟨⟨-1, 0, false⟩, by decide, ?_⟩, ?_⟩ (ih r c h1 (by omega) h3 h4)
      · simp only [Pos.add, Pos.mk.injEq]
        constructor <;> omega
      · exact interior_not_wall_mk R C _ _ (by omega) (by omega) h3 h4

theorem openRoom_walk_left (R C : Nat) (goals : Finset Pos) :
    ∀ (k : Nat) (c : Int), 1 ≤ (R : Int) → 1 ≤ c → c + k ≤ (C : Int) →
      Relation.ReflTransGen
        (fun a b => (∃ m ∈ MOVES, b = a.add m) ∧ b ∉ (openRoom R C goals).walls)
        ⟨1, c + (k : Int)⟩ ⟨1, c⟩ := by
  intro k
  induction k with
  | zero =>
      intro c _ _ _
      have he : (⟨1, c + ((0 : ℕ) : Int)⟩ : Pos) = ⟨1, c⟩ := by
        simp
      rw [he]
  | succ k ih =>
      intro c hR h1 h2
      refine Relation.ReflTransGen.head (b := ⟨1, c + (k : Int)⟩) ⟨⟨⟨0, -1, false⟩, by decide, ?_⟩, ?_⟩ (ih c hR h1 (by omega))
      · simp only [Pos.add, Pos.mk.injEq]
        constructor <;> omega
      · exact interior_not_wall_mk R C _ _ (le_refl 1) hR (by omega) (by omega)

theorem openRoom_corner_in_specF (R C : Nat) (goals : Finset Pos)
    (hgoals : goalsInInterior R C goals) (hne : goals.Nonempty) :
    (⟨1, 1⟩ : Pos) ∈ specF (openRoom R C goals) := by
  obtain ⟨g, hg⟩ := hne
  obtain ⟨gr, gc⟩ := g
  obtain ⟨h1, h2, h3, h4⟩ := hgoals _ hg
  dsimp only at h1 h2 h3 h4
  have hR : 1 ≤ (R : Int) := le_trans h1 h2
  refine ⟨⟨gr, gc⟩, hg, Relation.ReflTransGen.trans (b := ⟨1, gc⟩) ?_ ?_⟩
  · have he : (⟨gr, gc⟩ : Pos) = ⟨1 + ((gr - 1).toNat : Int), gc⟩ := by
      simp only [Pos.mk.injEq]
      exact ⟨by omega, trivial⟩
    rw [he]
    have := openRoom_walk_up R C goals (gr - 1).toNat 1 gc (le_refl 1) (by omega) h3 h4
    exact this
  · have he : (⟨1, gc⟩ : Pos) = ⟨1, 1 + ((gc - 1).toNat : Int)⟩ := by
      simp only [Pos.mk.injEq]
      exact ⟨trivial, by omega⟩
    rw [he]
    exact openRoom_walk_left R C goals (gc - 1).toNat 1 hR (le_refl 1) (by omega)

theorem specP_not_wall (lvl : Level) (hg : ∀ g ∈ lvl.goals, g ∉ lvl.walls) :
    ∀ x ∈ specP lvl, x ∉ lvl.walls := by
  rintro x ⟨g, hgm, hpath⟩
  induction hpath with
  | refl => exact hg g hgm
  | tail hp hstep =>
      obtain ⟨m, hm, rfl, hw, hw2⟩ := hstep
      exact hw

theorem openRoom_corner_not_in_specP (R C : Nat) (goals : Finset Pos)
    (hgoals : goalsInInterior R C goals) (hcorner : (⟨1, 1⟩ : Pos) ∉ goals) :
    (⟨1, 1⟩ : Pos) ∉ specP (openRoom R C goals) := by
  rintro ⟨g, hg, hpath⟩
  rcases hpath.cases_tail with heq | ⟨b, hb, hstep⟩
  · exact hcorner (heq ▸ hg)
  · obtain ⟨m, hm, he, hw1, hw2⟩ := hstep
    have hbw : b ∉ (openRoom R C goals).walls :=
      specP_not_wall _ (fun g' hg' => interior_not_wall R C g' (hgoals g' hg')) b ⟨g, hg, hb⟩
    obtain ⟨br, bc⟩ := b
    have hmcases : m = ⟨0, 1, false⟩ ∨ m = ⟨0, -1, false⟩ ∨
        m = ⟨-1, 0, false⟩ ∨ m = ⟨1, 0, false⟩ := by
      simpa [MOVES] using hm
    rcases hmcases with rfl | rfl | rfl | rfl
    · -- step to the right: the predecessor would be the wall cell (1,0)
      simp only [Pos.add, Pos.mk.injEq] at he
      obtain ⟨he1, he2⟩ := he
      exact hbw (openRoomWalls_mk R C br bc (by omega) (by omega) (by omega) (by omega)
        (Or.inr (Or.inr (Or.inl (by omega)))))
    · -- step to the left: the buffer cell (1,0) is a wall
      have hbuf : (⟨1, 1⟩ : Pos).add ⟨0, -1, false⟩ = ⟨1, 0⟩ := by decide
      rw [hbuf] at hw2
      exact hw2 (openRoomWalls_mk R C 1 0 (by omega) (by omega) (by omega) (by omega)
        (Or.inr (Or.inr (Or.inl (by omega)))))
    · -- step upward: the buffer cell (0,1) is a wall
      have hbuf : (⟨1, 1⟩ : Pos).add ⟨-1, 0, false⟩ = ⟨0, 1⟩ := by decide
      rw [hbuf] at hw2
      exact hw2 (openRoomWalls_mk R C 0 1 (by omega) (by omega) (by omega) (by omega)
        (Or.inl (by omega)))
    · -- step downward: the predecessor would be the wall cell (0,1)
      simp only [Pos.add, Pos.mk.injEq] at he
      obtain ⟨he1, he2⟩ := he
      exact hbw (openRoomWalls_mk R C br bc (by omega) (by omega) (by omega) (by omega)
        (Or.inl (by omega)))

/-- C5 (amended): on an open rectangular room fully enclosed by walls
with no internal walls, interior goals and a non-goal interior corner,
`find_deadends` returns a non-empty set containing that corner: the
corner is a genuine deadend, so the claimed empty set is wrong. -/
theorem openRoomCornerDeadend (R C : Nat) (goals : Finset Pos) (fuel : Nat) (s : Finset Pos)
    (hgoals : goalsInInterior R C goals) (hne : goals.Nonempty)
    (hcorner : (⟨1, 1⟩ : Pos) ∉ goals)
    (h : find_deadends (openRoom R C goals) fuel = some s) :
    (⟨1, 1⟩ : Pos) ∈ s ∧ s.Nonempty := by
  have hx := find_deadends_exact _ fuel s h
  have h1 : (⟨1, 1⟩ : Pos) ∈ (↑s : Set Pos) := by
    rw [hx]
    exact ⟨openRoom_corner_in_specF R C goals hgoals hne,
      openRoom_corner_not_in_specP R C goals hgoals hcorner⟩
  have h2 : (⟨1, 1⟩ : Pos) ∈ s := by exact_mod_cast h1
  exact ⟨h2, ⟨_, h2⟩⟩

/-- Witness for C5 (amended) on the 3×3 room with central goal. -/
theorem openRoomCornerDeadendWitness :
    goalsInInterior 3 3 {⟨2, 2⟩} ∧ ({⟨2, 2⟩} : Finset Pos).Nonempty ∧
    (⟨1, 1⟩ : Pos) ∉ ({⟨2, 2⟩} : Finset Pos) ∧
    find_deadends room33 60 = some room33Deadends ∧
    (⟨1, 1⟩ : Pos) ∈ room33Deadends ∧ room33Deadends.Nonempty := by
  have hsome : find_deadends (openRoom 3 3 ({⟨2, 2⟩} : Finset Pos)) 60 = some room33Deadends := by
    show find_deadends room33 60 = some room33Deadends
    exact (Option.some_get _).symm
  have h := openRoomCornerDeadend 3 3 ({⟨2, 2⟩} : Finset Pos) 60 room33Deadends (by decide)
    ⟨⟨2, 2⟩, Finset.mem_singleton_self _⟩ (by decide) hsome
  exact ⟨by decide, ⟨⟨2, 2⟩, Finset.mem_singleton_self _⟩, by decide, hsome, h.1, h.2⟩

/-- C5 counterexample: the 3×3 open room with a central goal satisfies
the claim's hypotheses (open room fully enclosed, no internal walls,
goals reachable from every floor cell — every interior cell is in the
goal flood), yet `find_deadends` returns a non-empty set (it contains
the corner (1,1)). -/
theorem openRoomDeadendsNonempty :
    find_deadends room33 60 = some room33Deadends ∧
    interiorCells 3 3 ⊆ room33FloorFlood ∧
    (⟨1, 1⟩ : Pos) ∈ room33Deadends ∧ room33Deadends ≠ ∅ :=
  ⟨(Option.some_get _).symm, by decide, by decide, by decide⟩

/-! ### Replay lemmas -/

theorem MOVES_nonpush : ∀ m ∈ MOVES, m.push = false := by decide

theorem MOVES_P_push : ∀ m ∈ MOVES_P, m.push = true := by decide

theorem replay_append (xs : List Move) :
    ∀ (ys : List Move) (s : State),
      replay s (xs ++ ys) = (replay s xs).bind (fun t => replay t ys) := by
  induction xs with
  | nil => intro ys s; rfl
  | cons m ms ih =>
      intro ys s
      show (if s.can_move m then replay (s.move m).1 (ms ++ ys) else none) =
        ((if s.can_move m then replay (s.move m).1 ms else none).bind (fun t => replay t ys))
      by_cases h : s.can_move m
      · rw [if_pos h, if_pos h]
        exact ih ys (s.move m).1
      · rw [if_neg h, if_neg h]
        rfl

theorem core_fields {t u : State} (h : coreOf t = coreOf u) :
    t.level = u.level ∧ t.boxes = u.boxes ∧ t.player = u.player := by
  injection h with ha hb
  injection hb with hb hc
  exact ⟨ha, hb, hc⟩

theorem is_free_core {t u : State} (h : coreOf t = coreOf u) (p : Pos) :
    t.is_free p ↔ u.is_free p := by
  obtain ⟨h1, h2, h3⟩ := core_fields h
  unfold State.is_free
  rw [h1, h2]

theorem can_move_core {t u : State} (h : coreOf t = coreOf u) (m : Move) :
    t.can_move m ↔ u.can_move m := by
  obtain ⟨h1, h2, h3⟩ := core_fields h
  unfold State.can_move State.is_free
  rw [h1, h2, h3]

theorem move_core {t u : State} (h : coreOf t = coreOf u) (m : Move) :
    coreOf (t.move m).1 = coreOf (u.move m).1 := by
  obtain ⟨h1, h2, h3⟩ := core_fields h
  unfold State.move State.moveD
  by_cases hc : t.can_move m
  · rw [if_pos hc, if_pos ((can_move_core h m).mp hc)]
    unfold coreOf
    simp only [h1, h2, h3]
  · rw [if_neg hc, if_neg (fun hu => hc ((can_move_core h m).mpr hu))]
    exact h

theorem replay_core (ms : List Move) :
    ∀ {t u : State}, coreOf t = coreOf u →
      (replay t ms).map coreOf = (replay u ms).map coreOf := by
  induction ms with
  | nil =>
      intro t u h
      show (some t).map coreOf = (some u).map coreOf
      simp only [Option.map_some']
      exact congrArg some h
  | cons m ms ih =>
      intro t u h
      show (if t.can_move m then replay (t.move m).1 ms else none).map coreOf =
        (if u.can_move m then replay (u.move m).1 ms else none).map coreOf
      by_cases hc : t.can_move m
      · rw [if_pos hc, if_pos ((can_move_core h m).mp hc)]
        exact ih (move_core h m)
      · rw [if_neg hc, if_neg (fun hu => hc ((can_move_core h m).mpr hu))]

theorem replay_step_free (t : State) (m : Move) (h : t.is_free (t.player.add m)) :
    replay t [m] = some (t.move m).1 ∧ (t.move m).1.level = t.level ∧
    (t.move m).1.boxes = t.boxes ∧ (t.move m).1.player = t.player.add m := by
  have hc : t.can_move m := Or.inl h
  have hmv : (t.move m).1 =
      { level := t.level, boxes := t.boxes, player := t.player.add m,
        history := t.history ++ [⟨m.dr, m.dc, false⟩], redoable := [] } := by
    unfold State.move State.moveD
    rw [if_pos hc]
    have hb : t.player.add m ∉ t.boxes := h.2
    simp [hb]
  constructor
  · show (if t.can_move m then replay (t.move m).1 [] else none) = some (t.move m).1
    rw [if_pos hc]
    rfl
  · rw [hmv]
    exact ⟨rfl, rfl, rfl⟩

/-! ### find_path: structural lemmas about one expansion round -/

theorem expandPath_sub_v (s : State) (p : Pos) (path : List Move) :
    ∀ (ms : List Move) (q : List (Pos × List Move)) (v : Finset Pos),
      v ⊆ (expandPath s p path ms q v).2 := by
  intro ms
  induction ms with
  | nil => intro q v; exact Finset.Subset.refl v
  | cons m ms ih =>
      intro q v
      show (if s.is_free (p.add m) ∧ p.add m ∉ v then _ else _ : _ × _).2 ⊇ _
      by_cases hc : s.is_free (p.add m) ∧ p.add m ∉ v
      · rw [if_pos hc]
        exact fun x hx => ih _ _ (Finset.mem_insert_of_mem hx)
      · rw [if_neg hc]
        exact ih _ _

theorem expandPath_sub_q (s : State) (p : Pos) (path : List Move) :
    ∀ (ms : List Move) (q : List (Pos × List Move)) (v : Finset Pos),
      ∀ pp ∈ q, pp ∈ (expandPath s p path ms q v).1 := by
  intro ms
  induction ms with
  | nil => intro q v pp hpp; exact hpp
  | cons m ms ih =>
      intro q v pp hpp
      show pp ∈ (if s.is_free (p.add m) ∧ p.add m ∉ v then _ else _ : _ × _).1
      by_cases hc : s.is_free (p.add m) ∧ p.add m ∉ v
      · rw [if_pos hc]
        exact ih _ _ pp (List.mem_append_left _ hpp)
      · rw [if_neg hc]
        exact ih _ _ pp hpp

theorem expandPath_mem_q (s : State) (p : Pos) (path : List Move) :
    ∀ (ms : List Move) (q : List (Pos × List Move)) (v : Finset Pos),
      ∀ pp ∈ (expandPath s p path ms q v).1,
        pp ∈ q ∨ ∃ m ∈ ms, pp = (p.add m, path ++ [m]) ∧ s.is_free (p.add m) := by
  intro ms
  induction ms with
  | nil => intro q v pp hpp; exact Or.inl hpp
  | cons m ms ih =>
      intro q v pp hpp
      rw [show expandPath s p path (m :: ms) q v =
        (if s.is_free (p.add m) ∧ p.add m ∉ v then
          expandPath s p path ms (q ++ [(p.add m, path ++ [m])]) (insert (p.add m) v)
        else expandPath s p path ms q v) from rfl] at hpp
      by_cases hc : s.is_free (p.add m) ∧ p.add m ∉ v
      · rw [if_pos hc] at hpp
        rcases ih _ _ pp hpp with h | ⟨m', hm', he, hf⟩
        · rcases List.mem_append.mp h with h' | h'
          · exact Or.inl h'
          · rcases List.mem_singleton.mp h' with rfl
            exact Or.inr ⟨m, List.mem_cons_self m ms, rfl, hc.1⟩
        · exact Or.inr ⟨m', List.mem_cons_of_mem m hm', he, hf⟩
      · rw [if_neg hc] at hpp
        rcases ih _ _ pp hpp with h | ⟨m', hm', he, hf⟩
        · exact Or.inl h
        · exact Or.inr ⟨m', List.mem_cons_of_mem m hm', he, hf⟩

theorem expandPath_free_mem (s : State) (p : Pos) (path : List Move) :
    ∀ (ms : List Move) (q : List (Pos × List Move)) (v : Finset Pos),
      ∀ m ∈ ms, s.is_free (p.add m) → p.add m ∈ (expandPath s p path ms q v).2 := by
  intro ms
  induction ms with
  | nil => intro q v m hm; cases hm
  | cons m' ms ih =>
      intro q v m hm hf
      show p.add m ∈ (if s.is_free (p.add m') ∧ p.add m' ∉ v then _ else _ : _ × _).2
      rcases List.mem_cons.mp hm with rfl | hm'
      · by_cases hc : s.is_free (p.add m) ∧ p.add m ∉ v
        · rw [if_pos hc]
          exact expandPath_sub_v s p path ms _ _ (Finset.mem_insert_self _ _)
        · rw [if_neg hc]
          have hv : p.add m ∈ v := by
            by_contra hv
            exact hc ⟨hf, hv⟩
          exact expandPath_sub_v s p path ms _ _ hv
      · by_cases hc : s.is_free (p.add m') ∧ p.add m' ∉ v
        · rw [if_pos hc]
          exact ih _ _ m hm' hf
        · rw [if_neg hc]
          exact ih _ _ m hm' hf

theorem expandPath_mem_v (s : State) (p : Pos) (path : List Move) :
    ∀ (ms : List Move) (q : List (Pos × List Move)) (v : Finset Pos),
      ∀ x ∈ (expandPath s p path ms q v).2,
        x ∈ v ∨ ∃ pp ∈ (expandPath s p path ms q v).1, pp.1 = x := by
  intro ms
  induction ms with
  | nil => intro q v x hx; exact Or.inl hx
  | cons m ms ih =>
      intro q v x hx
      rw [show expandPath s p path (m :: ms) q v =
        (if s.is_free (p.add m) ∧ p.add m ∉ v then
          expandPath s p path ms (q ++ [(p.add m, path ++ [m])]) (insert (p.add m) v)
        else expandPath s p path ms q v) from rfl] at hx ⊢
      by_cases hc : s.is_free (p.add m) ∧ p.add m ∉ v
      · rw [if_pos hc] at hx ⊢
        rcases ih _ _ x hx with h | h
        · rcases Finset.mem_insert.mp h with rfl | h'
          · refine Or.inr ⟨(p.add m, path ++ [m]), ?_, rfl⟩
            exact expandPath_sub_q s p path ms _ _ _
              (List.mem_append_right _ (List.mem_singleton_self _))
          · exact Or.inl h'
        · exact Or.inr h
      · rw [if_neg hc] at hx ⊢
        exact ih _ _ x hx

/-! ### find_path: soundness and completeness -/

theorem findPathLoop_cons (s : State) (goal : Pos) (n : Nat) (p : Pos)
    (pth : List Move) (rest : List (Pos × List Move)) (v : Finset Pos) :
    findPathLoop s goal (n + 1) ((p, pth) :: rest) v =
      if p = goal then some (some pth)
      else findPathLoop s goal n (expandPath s p pth MOVES rest v).1
        (expandPath s p pth MOVES rest v).2 := rfl

theorem findPathLoop_sound (s : State) (goal : Pos) :
    ∀ (fuel : Nat) (q : List (Pos × List Move)) (v : Finset Pos) (path : List Move),
      findPathLoop s goal fuel q v = some (some path) →
      (∀ pp ∈ q, (∀ m ∈ pp.2, m.push = false) ∧ freeReach s pp.1 ∧
        ∃ t, replay s pp.2 = some t ∧ t.level = s.level ∧ t.boxes = s.boxes ∧
          t.player = pp.1) →
      (∀ m ∈ path, m.push = false) ∧ freeReach s goal ∧
      ∃ t, replay s path = some t ∧ t.level = s.level ∧ t.boxes = s.boxes ∧
        t.player = goal := by
  intro fuel
  induction fuel with
  | zero => intro q v path h; simp [findPathLoop] at h
  | succ n ih =>
      intro q v path h hinv
      cases q with
      | nil => simp [findPathLoop] at h
      | cons pp0 rest =>
          obtain ⟨p, pth⟩ := pp0
          rw [findPathLoop_cons] at h
          by_cases hpg : p = goal
          · rw [if_pos hpg] at h
            injection h with h
            injection h with h
            subst h
            have := hinv (p, pth) (List.mem_cons_self _ _)
            rw [hpg] at this
            exact this
          · rw [if_neg hpg] at h
            refine ih _ _ path h ?_
            intro pp hpp
            rcases expandPath_mem_q s p pth MOVES rest v pp hpp with hold | ⟨m, hm, rfl, hf⟩
            · exact hinv pp (List.mem_cons_of_mem _ hold)
            · obtain ⟨hflags, hreach, t, hrep, hlvl, hbox, hply⟩ :=
                hinv (p, pth) (List.mem_cons_self _ _)

              refine ⟨?_, ?_, ?_⟩
              · intro m' hm'
                rcases List.mem_append.mp hm' with h' | h'
                · exact hflags m' h'
                · rcases List.mem_singleton.mp h' with rfl
                  exact MOVES_nonpush m' hm
              · exact Relation.ReflTransGen.tail hreach ⟨⟨m, hm, rfl⟩, hf⟩
              · have hfree_t : t.is_free (t.player.add m) := by
                  rw [hply]
                  unfold State.is_free at hf ⊢
                  rw [hlvl, hbox]
                  exact hf
                obtain ⟨hstep, hl2, hb2, hp2⟩ := replay_step_free t m hfree_t
                refine ⟨(t.move m).1, ?_, ?_, ?_, ?_⟩
                · rw [replay_append, hrep]
                  exact hstep
                · rw [hl2, hlvl]
                · rw [hb2, hbox]
                · rw [hp2, hply]

theorem find_path_sound (s : State) (goal : Pos) (fuel : Nat) (path : List Move)
    (h : find_path s goal fuel = some (some path)) :
    (∀ m ∈ path, m.push = false) ∧ freeReach s goal ∧
    ∃ t, replay s path = some t ∧ t.level = s.level ∧ t.boxes = s.boxes ∧
      t.player = goal := by
  unfold find_path at h
  by_cases h1 : ¬ s.is_free goal
  · rw [if_pos h1] at h
    injection h with h
    cases h
  · rw [if_neg h1] at h
    by_cases h2 : s.player = goal
    · rw [if_pos h2] at h
      injection h with h
      injection h with h
      subst h
      refine ⟨?_, ?_, s, rfl, rfl, rfl, h2⟩
      · intro m hm
        cases hm
      · rw [← h2]
        exact Relation.ReflTransGen.refl
    · rw [if_neg h2] at h
      refine findPathLoop_sound s goal fuel _ _ path h ?_
      intro pp hpp
      rcases List.mem_singleton.mp hpp with rfl
      refine ⟨?_, Relation.ReflTransGen.refl, s, rfl, rfl, rfl, rfl⟩
      intro m hm
      cases hm

theorem findPathLoop_no_goal (s : State) (goal : Pos) :
    ∀ (fuel : Nat) (q : List (Pos × List Move)) (v : Finset Pos),
      findPathLoop s goal fuel q v = some none → ∀ pp ∈ q, pp.1 ≠ goal := by
  intro fuel
  induction fuel with
  | zero => intro q v h; simp [findPathLoop] at h
  | succ n ih =>
      intro q v h
      cases q with
      | nil => intro pp hpp; cases hpp
      | cons pp0 rest =>
          obtain ⟨p, pth⟩ := pp0
          rw [findPathLoop_cons] at h
          by_cases hpg : p = goal
          · rw [if_pos hpg] at h
            injection h with h
            cases h
          · rw [if_neg hpg] at h
            intro pp hpp
            rcases List.mem_cons.mp hpp with rfl | hpp'
            · exact hpg
            · exact ih _ _ h pp (expandPath_sub_q s p pth MOVES rest v pp hpp')

theorem findPathLoop_complete (s : State) (goal : Pos) :
    ∀ (fuel : Nat) (q : List (Pos × List Move)) (v : Finset Pos),
      findPathLoop s goal fuel q v = some none →
      (∀ pp ∈ q, pp.1 = s.player ∨ pp.1 ∈ v) →
      (∀ x, (x = s.player ∨ x ∈ v) → (∀ pp ∈ q, pp.1 ≠ x) →
        ∀ m ∈ MOVES, s.is_free (x.add m) → x.add m ∈ v) →
      goal ≠ s.player → goal ∉ v →
      ¬ freeReach s goal := by
  intro fuel
  induction fuel with
  | zero => intro q v h; simp [findPathLoop] at h
  | succ n ih =>
      intro q v h hK1 hK2 hg1 hg2
      cases q with
      | nil =>
          intro hreach
          have hS : ∀ x, Relation.ReflTransGen
              (fun a b => (∃ m ∈ MOVES, b = a.add m) ∧ s.is_free b) s.player x →
              (x = s.player ∨ x ∈ v) := by
            intro x hx
            induction hx with
            | refl => exact Or.inl rfl
            | tail hab hstep ihx =>
                obtain ⟨⟨m, hm, rfl⟩, hfree⟩ := hstep
                exact Or.inr (hK2 _ ihx (by intro pp hpp; cases hpp) m hm hfree)
          rcases hS goal hreach with h' | h'
          · exact hg1 h'
          · exact hg2 h'
      | cons pp0 rest =>
          obtain ⟨p, pth⟩ := pp0
          rw [findPathLoop_cons] at h
          by_cases hpg : p = goal
          · rw [if_pos hpg] at h
            injection h with h
            cases h
          · rw [if_neg hpg] at h
            refine ih _ _ h ?_ ?_ hg1 ?_
            · intro pp hpp
              rcases expandPath_mem_q s p pth MOVES rest v pp hpp with hold | ⟨m, hm, rfl, hf⟩
              · rcases hK1 pp (List.mem_cons_of_mem _ hold) with h' | h'
                · exact Or.inl h'
                · exact Or.inr (expandPath_sub_v s p pth MOVES rest v h')
              · exact Or.inr (expandPath_free_mem s p pth MOVES rest v m hm hf)
            · intro x hx hnq m hm hf
              by_cases hxp : x = p
              · subst hxp
                exact expandPath_free_mem s x pth MOVES rest v m hm hf
              · have hxv : x = s.player ∨ x ∈ v := by
                  rcases hx with h' | h'
                  · exact Or.inl h'
                  · rcases expandPath_mem_v s p pth MOVES rest v x h' with h'' | ⟨pp, hpp, hppx⟩
                    · exact Or.inr h''
                    · exact absurd hppx (hnq pp hpp)
                have hnq_old : ∀ pp ∈ (p, pth) :: rest, pp.1 ≠ x := by
                  intro pp hpp
                  rcases List.mem_cons.mp hpp with rfl | hpp'
                  · exact fun he => hxp he.symm
                  · exact hnq pp (expandPath_sub_q s p pth MOVES rest v pp hpp')
                exact expandPath_sub_v s p pth MOVES rest v (hK2 x hxv hnq_old m hm hf)
            · intro hgv'
              rcases expandPath_mem_v s p pth MOVES rest v goal hgv' with h' | ⟨pp, hpp, hppg⟩
              · exact hg2 h'
              · exact (findPathLoop_no_goal s goal n _ _ h pp hpp) hppg

theorem find_path_complete (s : State) (goal : Pos) (fuel : Nat)
    (hfree : s.is_free goal) (h : find_path s goal fuel = some none) :
    ¬ freeReach s goal := by
  unfold find_path at h
  rw [if_neg (not_not_intro hfree)] at h
  by_cases h2 : s.player = goal
  · rw [if_pos h2] at h
    injection h with h
    cases h
  · rw [if_neg h2] at h
    refine findPathLoop_complete s goal fuel _ _ h ?_ ?_ (fun he => h2 he.symm) (by simp)
    · intro pp hpp
      rcases List.mem_singleton.mp hpp with rfl
      exact Or.inl rfl
    · intro x hx hnq m hm hf
      exfalso
      rcases hx with h' | h'
      · exact hnq (s.player, []) (List.mem_singleton_self _) (by rw [h'])
      · simp at h'

/-! ### C6: find_path result cases -/

/-- C6 (amended): `find_path` returns the empty move sequence when the
goal is free and the mover is already there; an explicit "no path"
result (`None`, not an exception) when the goal is a wall or occupied by
a block; and, for a free goal on a terminating run, a sequence of
non-push moves exactly when the goal is reachable from the mover through
free cells (so an unreachable free goal also yields the "no path"
result). -/
theorem findPathCases (s₁ s₂ s₃ : State) (g₁ g₂ g₃ : Pos) (f₁ f₂ f₃ : Nat)
    (r₃ : Option (List Move)) :
    (s₁.is_free g₁ → s₁.player = g₁ → find_path s₁ g₁ f₁ = some (some [])) ∧
    (¬ s₂.is_free g₂ → find_path s₂ g₂ f₂ = some none) ∧
    (s₃.is_free g₃ → find_path s₃ g₃ f₃ = some r₃ →
      ((∃ p, r₃ = some p ∧ ∀ m ∈ p, m.push = false) ↔ freeReach s₃ g₃)) := by
  refine ⟨fun hfree hat => ?_, fun hocc => ?_, fun hfree hrun => ⟨?_, ?_⟩⟩
  · unfold find_path
    rw [if_neg (not_not_intro hfree), if_pos hat]
  · unfold find_path
    rw [if_pos hocc]
  · rintro ⟨p, rfl, -⟩
    exact (find_path_sound s₃ g₃ f₃ p hrun).2.1
  · intro hreach
    cases r₃ with
    | none => exact absurd hreach (find_path_complete s₃ g₃ f₃ hfree hrun)
    | some p => exact ⟨p, rfl, (find_path_sound s₃ g₃ f₃ p hrun).1⟩

/-- Witness for C6 (amended) on the corridor: at-goal gives `[]`, a
blocked goal gives "no path", and a successful run certifies
reachability. -/
theorem findPathCasesWitness :
    find_path corridorEmpty ⟨1, 1⟩ 5 = some (some []) ∧
    find_path corridorState ⟨1, 2⟩ 5 = some none ∧
    freeReach corridorEmpty ⟨1, 3⟩ :=
  ⟨(findPathCases corridorEmpty corridorState corridorEmpty ⟨1, 1⟩ ⟨1, 2⟩ ⟨1, 3⟩ 5 5 20
      (some [⟨0, 1, false⟩, ⟨0, 1, false⟩])).1 (by decide) (by decide),
   (findPathCases corridorEmpty corridorState corridorEmpty ⟨1, 1⟩ ⟨1, 2⟩ ⟨1, 3⟩ 5 5 20
      (some [⟨0, 1, false⟩, ⟨0, 1, false⟩])).2.1 (by decide),
   ((findPathCases corridorEmpty corridorState corridorEmpty ⟨1, 1⟩ ⟨1, 2⟩ ⟨1, 3⟩ 5 5 20
      (some [⟨0, 1, false⟩, ⟨0, 1, false⟩])).2.2 (by decide) (by decide)).mp
     ⟨[⟨0, 1, false⟩, ⟨0, 1, false⟩], rfl, by decide⟩⟩

/-- C6 counterexample: on the degenerate state whose mover stands on the
level's only wall cell, the mover is already at the goal but `find_path`
returns the "no path" result, not the empty move sequence: the `is_free`
check precedes the at-goal check. -/
theorem findPathAtGoalNotEmpty :
    onWallState.player = (⟨0, 0⟩ : Pos) ∧
    find_path onWallState ⟨0, 0⟩ 5 = some none ∧
    find_path onWallState ⟨0, 0⟩ 5 ≠ some (some []) :=
  ⟨rfl, by decide, by decide⟩

/-! ### plan_push: soundness of the push planner -/

theorem popMinBy_mem (le : α → α → Bool) :
    ∀ (l : List α) (x : α) (r : List α), popMinBy le l = some (x, r) → x ∈ l := by
  intro l
  induction l with
  | nil => intro x r h; cases h
  | cons a as ih =>
      intro x r h
      unfold popMinBy at h
      cases hrec : popMinBy le as with
      | none =>
          rw [hrec] at h
          injection h with h
          injection h with h1 h2
          exact h1 ▸ List.mem_cons_self a as
      | some mr =>
          obtain ⟨m, rr⟩ := mr
          rw [hrec] at h
          dsimp only at h
          by_cases hle : le a m
          · rw [if_pos hle] at h
            injection h with h
            injection h with h1 h2
            exact h1 ▸ List.mem_cons_self a as
          · rw [if_neg hle] at h
            injection h with h
            injection h with h1 h2
            exact List.mem_cons_of_mem a (h1 ▸ ih m rr hrec)

theorem popMinBy_rest (le : α → α → Bool) :
    ∀ (l : List α) (x : α) (r : List α), popMinBy le l = some (x, r) →
      ∀ y ∈ r, y ∈ l := by
  intro l
  induction l with
  | nil => intro x r h; cases h
  | cons a as ih =>
      intro x r h y hy
      unfold popMinBy at h
      cases hrec : popMinBy le as with
      | none =>
          rw [hrec] at h
          injection h with h
          injection h with h1 h2
          rw [← h2] at hy
          cases hy
      | some mr =>
          obtain ⟨m, rr⟩ := mr
          rw [hrec] at h
          dsimp only at h
          by_cases hle : le a m
          · rw [if_pos hle] at h
            injection h with h
            injection h with h1 h2
            exact List.mem_cons_of_mem a (h2 ▸ hy)
          · rw [if_neg hle] at h
            injection h with h
            injection h with h1 h2
            rw [← h2] at hy
            rcases List.mem_cons.mp hy with rfl | hy'
            · exact List.mem_cons_self _ _
            · exact List.mem_cons_of_mem a (ih m rr hrec y hy')

theorem Pos.add_inv_add (p : Pos) (m : Move) : (p.add m.inv).add m = p := by
  cases p
  simp only [Pos.add, Move.inv, Pos.mk.injEq]
  constructor <;> ring

theorem union_singleton_erase (B : Finset Pos) (b : Pos) (hb : b ∉ B) :
    (B ∪ {b}).erase b = B := by
  ext x
  simp only [Finset.mem_erase, Finset.mem_union, Finset.mem_singleton]
  constructor
  · rintro ⟨h1, h2 | h2⟩
    · exact h2
    · exact absurd h2 h1
  · intro hx
    exact ⟨fun he => hb (he ▸ hx), Or.inl hx⟩

theorem expandPush_mem (state2 : State) (goal box : Pos) (path : List Move) (fpFuel : Nat) :
    ∀ (ms : List Move) (nodes : List PPNode),
      expandPush state2 goal box path fpFuel ms = some nodes →
      ∀ n ∈ nodes, ∃ m ∈ ms, ∃ positioning,
        state2.is_free (box.add m) ∧ box.add m ∉ state2.level.deadends ∧
        find_path state2 (box.add m.inv) fpFuel = some (some positioning) ∧
        n = ((path ++ positioning ++ [m]).length + (box.add m).dist goal,
             box.add m, box, path ++ positioning ++ [m]) := by
  intro ms
  induction ms with
  | nil =>
      intro nodes h n hn
      injection h with h
      rw [← h] at hn
      cases hn
  | cons m ms ih =>
      intro nodes h n hn
      rw [show expandPush state2 goal box path fpFuel (m :: ms) =
        (if state2.is_free (box.add m) ∧ box.add m ∉ state2.level.deadends then
          match find_path state2 (box.add m.inv) fpFuel with
          | none => none
          | some none => expandPush state2 goal box path fpFuel ms
          | some (some positioning) =>
              match expandPush state2 goal box path fpFuel ms with
              | none => none
              | some rest =>
                  some (((path ++ positioning ++ [m]).length + (box.add m).dist goal,
                         box.add m, box, path ++ positioning ++ [m]) :: rest)
        else expandPush state2 goal box path fpFuel ms) from rfl] at h
      by_cases hc : state2.is_free (box.add m) ∧ box.add m ∉ state2.level.deadends
      · rw [if_pos hc] at h
        cases hfp : find_path state2 (box.add m.inv) fpFuel with
        | none =>
            rw [hfp] at h
            cases h
        | some o =>
            cases o with
            | none =>
                rw [hfp] at h
                obtain ⟨m', hm', rest⟩ := ih nodes h n hn
                exact ⟨m', List.mem_cons_of_mem m hm', rest⟩
            | some positioning =>
                rw [hfp] at h
                cases hrest : expandPush state2 goal box path fpFuel ms with
                | none =>
                    rw [hrest] at h
                    cases h
                | some rest =>
                    rw [hrest] at h
                    injection h with h
                    rw [← h] at hn
                    rcases List.mem_cons.mp hn with rfl | hn'
                    · exact ⟨m, List.mem_cons_self m ms, positioning,
                        hc.1, hc.2, hfp, rfl⟩
                    · obtain ⟨m', hm', rest'⟩ := ih rest hrest n hn'
                      exact ⟨m', List.mem_cons_of_mem m hm', rest'⟩
      · rw [if_neg hc] at h
        obtain ⟨m', hm', rest⟩ := ih nodes h n hn
        exact ⟨m', List.mem_cons_of_mem m hm', rest⟩

theorem planPushLoop_sound (s : State) (start goal : Pos) (fpFuel : Nat) :
    ∀ (fuel : Nat) (queue : List PPNode) (visited : Finset (Pos × Pos)) (path : List Move),
      planPushLoop s start goal fpFuel fuel queue visited = some (some path) →
      (∀ n ∈ queue, n.2.1 ∉ s.boxes \ {start} ∧
        ∃ t, replay s.copy n.2.2.2 = some t ∧ t.level = s.level ∧
          t.boxes = (s.boxes \ {start}) ∪ {n.2.1} ∧ t.player = n.2.2.1) →
      ∃ t, replay s.copy path = some t ∧ t.level = s.level ∧
        t.boxes = (s.boxes \ {start}) ∪ {goal} := by
  intro fuel
  induction fuel with
  | zero => intro queue visited path h; simp [planPushLoop] at h
  | succ n ih =>
      intro queue visited path h hinv
      rw [show planPushLoop s start goal fpFuel (n + 1) queue visited =
        (match popMinBy ppLe queue with
         | none => some none
         | some ((_, box, player, pth), rest) =>
             if box = goal then some (some pth)
             else if (box, player) ∈ visited then
               planPushLoop s start goal fpFuel n rest visited
             else
               match expandPush ⟨s.level, (s.boxes \ {start}) ∪ {box}, player, [], []⟩
                   goal box pth fpFuel MOVES_P with
               | none => none
               | some newNodes =>
                   planPushLoop s start goal fpFuel n (rest ++ newNodes)
                     (insert (box, player) visited)) from rfl] at h
      cases hpop : popMinBy ppLe queue with
      | none =>
          rw [hpop] at h
          injection h with h
          cases h
      | some pr =>
          obtain ⟨⟨pri, box, player, pth⟩, rest⟩ := pr
          rw [hpop] at h
          dsimp only at h
          have hmem := popMinBy_mem ppLe queue _ _ hpop
          have hrest := popMinBy_rest ppLe queue _ _ hpop
          obtain ⟨hbox_not, t, hrep, hlvl, hboxes, hply⟩ := hinv _ hmem
          by_cases hbg : box = goal
          · rw [if_pos hbg] at h
            injection h with h
            injection h with h
            subst h
            exact ⟨t, hrep, hlvl, by rw [← hbg]; exact hboxes⟩
          · rw [if_neg hbg] at h
            by_cases hv : (box, player) ∈ visited
            · rw [if_pos hv] at h
              exact ih rest visited path h (fun nn hn => hinv nn (hrest nn hn))
            · rw [if_neg hv] at h
              cases hexp : expandPush ⟨s.level, (s.boxes \ {start}) ∪ {box}, player, [], []⟩
                  goal box pth fpFuel MOVES_P with
              | none =>
                  rw [hexp] at h
                  cases h
              | some newNodes =>
                  rw [hexp] at h
                  refine ih _ _ path h ?_
                  intro nn hnn
                  rcases List.mem_append.mp hnn with hn | hn
                  · exact hinv nn (hrest nn hn)
                  · obtain ⟨m, hm, positioning, hfree2, hde, hfp, rfl⟩ :=
                      expandPush_mem _ goal box pth fpFuel MOVES_P newNodes hexp nn hn
                    have hcore : coreOf t =
                        coreOf (⟨s.level, (s.boxes \ {start}) ∪ {box}, player, [], []⟩ : State) := by
                      unfold coreOf
                      rw [hlvl, hboxes, hply]
                    obtain ⟨hflags, hreach2, u, hrepu, hulvl, hubox, huply⟩ :=
                      find_path_sound _ _ fpFuel positioning hfp
                    have hmap := replay_core positioning hcore
                    rw [hrepu] at hmap
                    have hex : ∃ u', replay t positioning = some u' ∧ coreOf u' = coreOf u := by
                      cases hru : replay t positioning with
                      | none =>
                          rw [hru] at hmap
                          cases hmap
                      | some u' =>
                          rw [hru] at hmap
                          injection hmap with hmap
                          exact ⟨u', rfl, hmap⟩
                    obtain ⟨u', hru, hcu⟩ := hex
                    obtain ⟨hul, hub, hup⟩ := core_fields hcu
                    have hul' : u'.level = s.level := by rw [hul, hulvl]
                    have hub' : u'.boxes = (s.boxes \ {start}) ∪ {box} := by rw [hub, hubox]
                    have hup' : u'.player = box.add m.inv := by rw [hup, huply]
                    have hpadd : u'.player.add m = box := by
                      rw [hup']
                      exact Pos.add_inv_add box m
                    have hboxmem : u'.player.add m ∈ u'.boxes := by
                      rw [hpadd, hub']
                      exact Finset.mem_union_right _ (Finset.mem_singleton_self box)
                    have hfree' : u'.is_free ((u'.player.add m).add m) := by
                      rw [hpadd]
                      unfold State.is_free at hfree2 ⊢
                      rw [hul', hub']
                      exact hfree2
                    have hcm : u'.can_move m := Or.inr ⟨MOVES_P_push m hm, hboxmem, hfree'⟩
                    have hmv : ((u'.move m).1).boxes = (s.boxes \ {start}) ∪ {box.add m} ∧
                        ((u'.move m).1).level = s.level := by
                      unfold State.move State.moveD
                      rw [if_pos hcm]
                      constructor
                      · show (if u'.player.add m ∈ u'.boxes then
                            insert ((u'.player.add m).add m) (u'.boxes.erase (u'.player.add m))
                          else u'.boxes) = _
                        rw [if_pos hboxmem, hpadd, hub', union_singleton_erase _ _ hbox_not,
                          Finset.insert_eq, Finset.union_comm]
                      · show u'.level = s.level
                        exact hul'
                    refine ⟨?_, (u'.move m).1, ?_, hmv.2, ?_, ?_⟩
                    · show box.add m ∉ s.boxes \ {start}
                      intro hmem'
                      exact hfree2.2 (Finset.mem_union_left _ hmem')
                    · show replay s.copy ((pth ++ positioning) ++ [m]) = some (u'.move m).1
                      rw [replay_append, replay_append, hrep]
                      show ((replay t positioning).bind fun t => replay t [m]) =
                        some (u'.move m).1
                      rw [hru]
                      show (if u'.can_move m then replay (u'.move m).1 [] else none) =
                        some (u'.move m).1
                      rw [if_pos hcm]
                      rfl
                    · exact hmv.1
                    · show ((u'.move m).1).player = box
                      unfold State.move State.moveD
                      rw [if_pos hcm]
                      exact hpadd

/-- C1 (amended): for every state `S`, box cell `start` (`start` holds a
block) and cell `goal`, if `plan_push(S, start, goal)` returns a move
sequence then replaying it move-by-move on a fresh copy of `S` succeeds
at every step (`can_move` holds before each application), and afterwards
the block set is exactly `S`'s blocks with the `start` block relocated
to `goal` — every other block is at its original position. -/
theorem planPushCorrect (s : State) (start goal : Pos) (fuel : Nat) (path : List Move)
    (hstart : start ∈ s.boxes)
    (h : plan_push s start goal fuel = some (some path)) :
    ∃ t, replay s.copy path = some t ∧ t.level = s.level ∧
      t.boxes = (s.boxes \ {start}) ∪ {goal} := by
  refine planPushLoop_sound s start goal fuel fuel _ ∅ path h ?_
  intro nn hnn
  rcases List.mem_singleton.mp hnn with rfl
  refine ⟨?_, s.copy, rfl, rfl, ?_, rfl⟩
  · show start ∉ s.boxes \ {start}
    simp
  · show s.boxes = (s.boxes \ {start}) ∪ {start}
    rw [Finset.sdiff_union_self_eq_union]
    rw [Finset.union_eq_left.mpr (Finset.singleton_subset_iff.mpr hstart)]

/-- Witness for C1 (amended): pushing the corridor box one cell right. -/
theorem planPushCorrectWitness :
    (⟨1, 2⟩ : Pos) ∈ corridorState.boxes ∧
    plan_push corridorState ⟨1, 2⟩ ⟨1, 3⟩ 20 = some (some [⟨0, 1, true⟩]) ∧
    (replay corridorState.copy [⟨0, 1, true⟩]).map State.boxes =
      some ((corridorState.boxes \ {⟨1, 2⟩}) ∪ {⟨1, 3⟩}) := by
  have h := planPushCorrect corridorState ⟨1, 2⟩ ⟨1, 3⟩ 20 [⟨0, 1, true⟩]
    (by decide) (by decide)
  obtain ⟨t, h1, h2, h3⟩ := h
  exact ⟨by decide, by decide, by rw [h1, Option.map_some', h3]⟩

/-- C1 counterexample: `plan_push` does not require a block at `start`.
With no blocks at all and `start = goal` free, it returns the empty
sequence, which replays trivially, yet no block ends at `goal`: the
claim as stated (for every start cell) is false. -/
theorem planPushNoBox :
    plan_push corridorEmpty ⟨1, 3⟩ ⟨1, 3⟩ 5 = some (some []) ∧
    replay corridorEmpty.copy [] = some corridorEmpty.copy ∧
    (⟨1, 3⟩ : Pos) ∉ corridorEmpty.copy.boxes ∧
    corridorEmpty.copy.boxes ≠ (corridorEmpty.boxes \ {⟨1, 3⟩}) ∪ {⟨1, 3⟩} :=
  ⟨by decide, rfl, by decide, by decide⟩

/-! ### C2: pruning behaviour of solve -/

/-- C2 (amended): a node popped from `solve`'s priority queue is dropped
(neither tested for success nor expanded) exactly when its fingerprint
was already seen; a popped node with an unseen fingerprint is tested for
success — and returned when solved — regardless of whether its blocks
occupy deadend cells (`solveable` is never consulted by `solve`; deadend
avoidance happens only at expansion, which considers only non-deadend
push targets). -/
theorem solvePruning (lvl₁ lvl₂ : Level) (pf₁ pf₂ f₁ f₂ c₁ c₂ : Nat)
    (heap₁ heap₂ : List SNode) (seen₁ seen₂ : Finset (Finset Pos × Pos))
    (pri₁ k₁ : Nat) (st₁ : State) (path₁ : List Move) (rest₁ : List SNode)
    (pri₂ k₂ : Nat) (st₂ : State) (path₂ : List Move) (rest₂ : List SNode) :
    (popMinBy snodeLe heap₁ = some ((pri₁, k₁, st₁, path₁), rest₁) →
      fingerprint st₁ ∈ seen₁ →
      solveLoop lvl₁ pf₁ (f₁ + 1) heap₁ seen₁ c₁ = solveLoop lvl₁ pf₁ f₁ rest₁ seen₁ c₁) ∧
    (popMinBy snodeLe heap₂ = some ((pri₂, k₂, st₂, path₂), rest₂) →
      fingerprint st₂ ∉ seen₂ → st₂.is_solved →
      solveLoop lvl₂ pf₂ (f₂ + 1) heap₂ seen₂ c₂ = some (some path₂)) := by
  constructor
  · intro hpop hseen
    rw [show solveLoop lvl₁ pf₁ (f₁ + 1) heap₁ seen₁ c₁ =
      (match popMinBy snodeLe heap₁ with
       | none => some none
       | some ((_, _, st, path), rest) =>
           if fingerprint st ∈ seen₁ then solveLoop lvl₁ pf₁ f₁ rest seen₁ c₁
           else if st.is_solved then some (some path)
           else
             match expandSolve lvl₁ pf₁ st path (sortedPos st.boxes) c₁ with
             | none => none
             | some (newNodes, cnt') =>
                 solveLoop lvl₁ pf₁ f₁ (rest ++ newNodes)
                   (insert (fingerprint st) seen₁) cnt') from rfl, hpop]
    dsimp only
    rw [if_pos hseen]
  · intro hpop hseen hsolved
    rw [show solveLoop lvl₂ pf₂ (f₂ + 1) heap₂ seen₂ c₂ =
      (match popMinBy snodeLe heap₂ with
       | none => some none
       | some ((_, _, st, path), rest) =>
           if fingerprint st ∈ seen₂ then solveLoop lvl₂ pf₂ f₂ rest seen₂ c₂
           else if st.is_solved then some (some path)
           else
             match expandSolve lvl₂ pf₂ st path (sortedPos st.boxes) c₂ with
             | none => none
             | some (newNodes, cnt') =>
                 solveLoop lvl₂ pf₂ f₂ (rest ++ newNodes)
                   (insert (fingerprint st) seen₂) cnt') from rfl, hpop]
    dsimp only
    rw [if_neg hseen, if_pos hsolved]

/-- Witness for C2 (amended): with the corner-box state (a block on the
deadend (1,1)), a seen fingerprint gets dropped, and an unseen solved
node is returned even though `solveable` is false for it. -/
theorem solvePruningWitness :
    (solveLoop cornerBoxState'.level 30 6 [(0, 0, cornerBoxState', [])]
        {fingerprint cornerBoxState'} 1 =
      solveLoop cornerBoxState'.level 30 5 [] {fingerprint cornerBoxState'} 1) ∧
    (solveLoop cornerBoxState'.level 30 6 [(0, 0, cornerBoxState', [])] ∅ 1 =
      some (some [])) ∧
    ¬ solveable cornerBoxState' :=
  ⟨(solvePruning cornerBoxState'.level cornerBoxState'.level 30 30 5 5 1 1
      [(0, 0, cornerBoxState', [])] [(0, 0, cornerBoxState', [])]
      {fingerprint cornerBoxState'} ∅ 0 0 cornerBoxState' [] [] 0 0 cornerBoxState' [] []).1
      rfl (by decide),
   (solvePruning cornerBoxState'.level cornerBoxState'.level 30 30 5 5 1 1
      [(0, 0, cornerBoxState', [])] [(0, 0, cornerBoxState', [])]
      {fingerprint cornerBoxState'} ∅ 0 0 cornerBoxState' [] [] 0 0 cornerBoxState' [] []).2
      rfl (by decide) (by decide),
   by decide⟩

/-- C2 counterexample: on the corridor level with a goal at (1,3)
covered by a block and a second block on the deadend cell (1,1), `solve`
pops the initial node — whose state has a block on a deadend of the
computed deadend set, so the claim says it must be dropped — and instead
tests it for success and returns the empty solution. -/
theorem solveNoDeadendDrop :
    (⟨1, 1⟩ : Pos) ∈ (find_deadends corridorGoalLvl 30).getD ∅ ∧
    (⟨1, 1⟩ : Pos) ∈ cornerBoxState.boxes ∧
    ¬ solveable cornerBoxState' ∧
    solve cornerBoxState 30 = some (some []) :=
  ⟨by decide, by decide, by decide, by decide⟩

end Sokoban
